import Mathlib

/-!
Verification development for the `cachesimulator` repository.

This file gives a shallow embedding of the cache simulation engine in
`src/cache_engine.py` (classes `CacheSimulator`, `DirectMappedCache`,
`FullyAssociativeCache`): cache lines, configuration, address decomposition,
the access state machine for both placement strategies, write policies,
eviction with dirty write-back, LRU recency tracking via an ordered
association list (mirroring Python's `OrderedDict`), and the statistics
aggregation, followed by theorems settling the specification claims.

Python machine knobs are modelled as follows: Python's unbounded `int` is
`Int` (addresses, which are non-negative, are `Nat`); `//` is `Int.fdiv`
(floor division); float ratios are represented by exact rationals `ℚ`;
fallible operations (list indexing, dict key lookup, `next(iter(...))`,
`math.log2` domain errors, division by zero) return `Except PyErr`.
-/

/-- The run-time errors the Python engine can raise. -/
inductive PyErr where
  /-- `ZeroDivisionError` from `cache_size // block_size` with `block_size = 0`. -/
  | zeroDivisionError
  /-- `ValueError: math domain error` from `math.log2` of a non-positive number. -/
  | mathDomainError
  /-- `IndexError` from `self.cache[index]` out of range (direct-mapped list). -/
  | indexError
  /-- `KeyError` from a missing `OrderedDict` key. -/
  | keyError
  /-- `StopIteration` from `next(iter(self.cache))` on an empty `OrderedDict`. -/
  | stopIteration
deriving Repr, DecidableEq

/-- Models Python `int(math.log2(x))` on an `int` argument: raises for
`x ≤ 0`, otherwise truncates `log2 x` to an integer, which for positive
integers is `Nat.log2` (exact at every magnitude exercised in this file). -/
def intLog2 (x : Int) : Except PyErr Nat :=
  if x ≤ 0 then .error .mathDomainError else .ok (Nat.log2 x.toNat)

/-- One cache block/line with metadata, from `CacheBlock` in
`src/cache_engine.py` (`valid`/`dirty` are the Python `0`/`1` integers). -/
structure CacheBlock where
  valid : Nat
  tag : Option Nat
  data : Option Int
  dirty : Nat
deriving Repr, DecidableEq

/-- `CacheBlock.__init__`: all lines start invalid and clean. -/
def CacheBlock.init : CacheBlock :=
  { valid := 0, tag := none, data := none, dirty := 0 }

/-- One simulated memory access request: `access(address, operation, data)`.
`operation` is a raw string exactly as in the source (only the exact string
`"write"` is treated as a write); `data` is the optional payload. -/
structure MemAccess where
  address : Nat
  operation : String
  data : Option Int
deriving Repr, DecidableEq

/-- The parts of the Python `response` dictionary that the claims are about
(`access_number`, `address`, `operation`, the decomposition, `hit`,
`eviction`, `dirty_writeback`, `affected_line`); `index` is `none` for the
fully-associative variant, which has no index field. -/
structure AccessResp where
  access_number : Nat
  address : Nat
  operation : String
  tag : Nat
  index : Option Nat
  offset : Nat
  hit : Bool
  eviction : Bool
  dirty_writeback : Bool
  affected_line : Option Nat
deriving Repr, DecidableEq

/-- The statistics dictionary returned by `CacheSimulator.get_statistics`. -/
structure Statistics where
  total_accesses : Nat
  hits : Nat
  misses : Nat
  hit_ratio : ℚ
  miss_ratio : ℚ
  memory_reads : Nat
  memory_writes : Nat
  total_memory_traffic : Nat
deriving Repr, DecidableEq

/-- Python `round(x, 2)`: round to 2 decimal places, ties to even
(Python's banker's rounding), on exact rationals. -/
def round2 (x : ℚ) : ℚ :=
  let y := x * 100
  let fl : Int := ⌊y⌋
  let frac : ℚ := y - fl
  let n : Int :=
    if frac < 1/2 then fl
    else if 1/2 < frac then fl + 1
    else if fl % 2 = 0 then fl else fl + 1
  (n : ℚ) / 100

/-- `CacheSimulator.get_statistics` as a function of the five counters:
ratios are percentages (`hits / total_accesses * 100`), `0` when
`total_accesses` is zero, rounded to two decimals. -/
def CacheSimulator.get_statistics
    (total_accesses hits misses memory_reads memory_writes : Nat) : Statistics :=
  let hit_ratio : ℚ := if 0 < total_accesses then (hits : ℚ) / (total_accesses : ℚ) * 100 else 0
  let miss_ratio : ℚ := if 0 < total_accesses then (misses : ℚ) / (total_accesses : ℚ) * 100 else 0
  { total_accesses, hits, misses,
    hit_ratio := round2 hit_ratio,
    miss_ratio := round2 miss_ratio,
    memory_reads, memory_writes,
    total_memory_traffic := memory_reads + memory_writes }

/-! ## Direct-mapped cache (`DirectMappedCache`) -/

/-- Instance state of `DirectMappedCache`: configuration attributes set by
`__init__` plus the line array and the statistics counters. -/
structure DMState where
  cache_size : Int
  block_size : Int
  num_blocks : Int
  write_policy : String
  offset_bits : Nat
  index_bits : Nat
  tag_bits : Int
  cache : List CacheBlock
  total_accesses : Nat
  hits : Nat
  misses : Nat
  memory_reads : Nat
  memory_writes : Nat
deriving Repr, DecidableEq

/-- `DirectMappedCache.__init__(cache_size, block_size, write_policy)`:
`num_blocks = cache_size // block_size` (raising `ZeroDivisionError` on a
zero block size), `offset_bits = int(log2(block_size))`,
`index_bits = int(log2(num_blocks))` (each raising on a non-positive
argument), `tag_bits = 32 - index_bits - offset_bits`, all lines initially
invalid and all counters zero.  No other validation is performed. -/
def mkDirectMappedCache (cache_size block_size : Int) (write_policy : String) :
    Except PyErr DMState :=
  if block_size = 0 then .error .zeroDivisionError else
  let num_blocks := Int.fdiv cache_size block_size
  match intLog2 block_size with
  | .error e => .error e
  | .ok offset_bits =>
    match intLog2 num_blocks with
    | .error e => .error e
    | .ok index_bits =>
      .ok { cache_size, block_size, num_blocks, write_policy, offset_bits, index_bits,
            tag_bits := 32 - (index_bits : Int) - (offset_bits : Int),
            cache := List.replicate num_blocks.toNat CacheBlock.init,
            total_accesses := 0, hits := 0, misses := 0,
            memory_reads := 0, memory_writes := 0 }

/-- `DirectMappedCache.decompose_address`: returns `(tag, index, offset)`
with masks `((1 << bits) - 1)` exactly as in the source. -/
def DMState.decompose_address (s : DMState) (address : Nat) : Nat × Nat × Nat :=
  let offset := address &&& ((1 <<< s.offset_bits) - 1)
  let index := (address >>> s.offset_bits) &&& ((1 <<< s.index_bits) - 1)
  let tag := address >>> (s.offset_bits + s.index_bits)
  (tag, index, offset)

/-- `DirectMappedCache._handle_write_hit`: re-reads `self.cache[index]`,
updates the stored value, and either writes through (clearing `dirty`,
incrementing `memory_writes`) or marks the line dirty. -/
def DMState.handle_write_hit (s : DMState) (index : Nat) (address : Nat) (data : Option Int) :
    Except PyErr DMState :=
  match s.cache.get? index with
  | none => .error .indexError
  | some cache_line =>
    if s.write_policy = "write-through" then
      .ok { s with
            cache := s.cache.set index
              { cache_line with data := some (data.getD (address : Int)), dirty := 0 },
            memory_writes := s.memory_writes + 1 }
    else
      .ok { s with
            cache := s.cache.set index
              { cache_line with data := some (data.getD (address : Int)), dirty := 1 } }

/-- `DirectMappedCache._fetch_from_memory`: increments `memory_reads`,
installs the block (`valid = 1`, the new tag, the payload), and sets the
dirty bit according to the operation and the write policy (a write under
write-through also propagates to memory). -/
def DMState.fetch_from_memory (s : DMState) (index tag address : Nat) (operation : String)
    (data : Option Int) : Except PyErr DMState :=
  match s.cache.get? index with
  | none => .error .indexError
  | some cache_line =>
    let s := { s with memory_reads := s.memory_reads + 1 }
    let cache_line := { cache_line with
      valid := 1, tag := some tag, data := some (data.getD (address : Int)) }
    if operation = "write" then
      if s.write_policy = "write-through" then
        .ok { s with
              cache := s.cache.set index { cache_line with dirty := 0 },
              memory_writes := s.memory_writes + 1 }
      else
        .ok { s with cache := s.cache.set index { cache_line with dirty := 1 } }
    else
      .ok { s with cache := s.cache.set index { cache_line with dirty := 0 } }

/-- `DirectMappedCache.access(address, operation, data)`: increments
`total_accesses`, decomposes the address, reads the target line, and takes
the hit path (counting the hit and handling a write hit) or the miss path
(counting the miss, flagging an eviction when the line was valid, doing the
dirty write-back when the policy is write-back and the victim is dirty, and
fetching from memory). -/
def DMState.access (s0 : DMState) (address : Nat) (operation : String) (data : Option Int) :
    Except PyErr (AccessResp × DMState) :=
  let s := { s0 with total_accesses := s0.total_accesses + 1 }
  let tag := (s.decompose_address address).1
  let index := (s.decompose_address address).2.1
  let offset := (s.decompose_address address).2.2
  let resp : AccessResp :=
    { access_number := s.total_accesses, address, operation, tag,
      index := some index, offset,
      hit := false, eviction := false, dirty_writeback := false,
      affected_line := some index }
  match s.cache.get? index with
  | none => .error .indexError
  | some cache_line =>
    if cache_line.valid = 1 ∧ cache_line.tag = some tag then
      let s := { s with hits := s.hits + 1 }
      let resp := { resp with hit := true }
      if operation = "write" then
        match s.handle_write_hit index address data with
        | .error e => .error e
        | .ok s' => .ok (resp, s')
      else
        .ok (resp, s)
    else
      let s := { s with misses := s.misses + 1 }
      let rs :=
        if cache_line.valid = 1 then
          if s.write_policy = "write-back" ∧ cache_line.dirty = 1 then
            ({ resp with eviction := true, dirty_writeback := true },
             { s with memory_writes := s.memory_writes + 1 })
          else
            ({ resp with eviction := true }, s)
        else
          (resp, s)
      match rs.2.fetch_from_memory index tag address operation data with
      | .error e => .error e
      | .ok s' => .ok (rs.1, s')

/-- Statistics snapshot of a direct-mapped instance. -/
def DMState.get_statistics (s : DMState) : Statistics :=
  CacheSimulator.get_statistics s.total_accesses s.hits s.misses s.memory_reads s.memory_writes

/-- Process a list of accesses in order, keeping only the final state. -/
def DMState.run (s : DMState) : List MemAccess → Except PyErr DMState
  | [] => .ok s
  | a :: rest =>
    match s.access a.address a.operation a.data with
    | .error e => .error e
    | .ok (_, s') => s'.run rest

/-- Process a list of accesses in order, collecting every response. -/
def DMState.runTrace (s : DMState) : List MemAccess → Except PyErr (List AccessResp × DMState)
  | [] => .ok ([], s)
  | a :: rest =>
    match s.access a.address a.operation a.data with
    | .error e => .error e
    | .ok (r, s') =>
      match s'.runTrace rest with
      | .error e => .error e
      | .ok (rs, s'') => .ok (r :: rs, s'')

/-- Construct a fresh direct-mapped cache and process a list of accesses. -/
def dmFresh (cache_size block_size : Int) (write_policy : String) (tr : List MemAccess) :
    Except PyErr DMState :=
  match mkDirectMappedCache cache_size block_size write_policy with
  | .error e => .error e
  | .ok s => s.run tr

/-- Construct a fresh direct-mapped cache and process a list of accesses,
collecting every response. -/
def dmFreshTrace (cache_size block_size : Int) (write_policy : String) (tr : List MemAccess) :
    Except PyErr (List AccessResp × DMState) :=
  match mkDirectMappedCache cache_size block_size write_policy with
  | .error e => .error e
  | .ok s => s.runTrace tr

/-! ## Fully associative cache (`FullyAssociativeCache`)

The Python `OrderedDict` mapping line numbers to blocks is modelled by an
association list in dictionary order: the front is the least recently used
end (the first item of the iteration order), `move_to_end` removes the entry
and appends it at the back. -/

/-- First line whose block is valid with the given tag (`_find_block`). -/
def find_block : List (Nat × CacheBlock) → Nat → Option Nat
  | [], _ => none
  | p :: rest, tag =>
    if p.2.valid = 1 ∧ p.2.tag = some tag then some p.1 else find_block rest tag

/-- First invalid (empty) line (`_find_empty_line`). -/
def find_empty : List (Nat × CacheBlock) → Option Nat
  | [] => none
  | p :: rest => if p.2.valid = 0 then some p.1 else find_empty rest

/-- `_evict_lru`: `next(iter(self.cache))`, the key at the front of the
iteration order (`none` models the `StopIteration` on an empty dict). -/
def evict_lru (cache : List (Nat × CacheBlock)) : Option Nat :=
  cache.head?.map Prod.fst

/-- `self.cache[k]`: value at a key, `none` when the key is missing. -/
def dict_get : List (Nat × CacheBlock) → Nat → Option CacheBlock
  | [], _ => none
  | p :: rest, k => if p.1 = k then some p.2 else dict_get rest k

/-- `self.cache[k] = b` on a dict: replace the value at an existing key in
place, append the pair when the key is new. -/
def dict_set : List (Nat × CacheBlock) → Nat → CacheBlock → List (Nat × CacheBlock)
  | [], k, b => [(k, b)]
  | p :: rest, k, b => if p.1 = k then (k, b) :: rest else p :: dict_set rest k b

/-- `OrderedDict.move_to_end(k)` (`_update_lru`): move the entry with key
`k` to the most-recently-used end, `KeyError` when the key is missing. -/
def move_to_end : List (Nat × CacheBlock) → Nat → Except PyErr (List (Nat × CacheBlock))
  | [], _ => .error .keyError
  | p :: rest, k =>
    if p.1 = k then .ok (rest ++ [p])
    else
      match move_to_end rest k with
      | .error e => .error e
      | .ok c => .ok (p :: c)

/-- Instance state of `FullyAssociativeCache`. -/
structure FAState where
  cache_size : Int
  block_size : Int
  num_blocks : Int
  write_policy : String
  offset_bits : Nat
  tag_bits : Int
  cache : List (Nat × CacheBlock)
  total_accesses : Nat
  hits : Nat
  misses : Nat
  memory_reads : Nat
  memory_writes : Nat
deriving Repr, DecidableEq

/-- `FullyAssociativeCache.__init__`: like the base constructor but with no
index bits (`tag_bits = 32 - offset_bits`) and an ordered dict of
`num_blocks` initially invalid lines keyed `0 .. num_blocks - 1`. -/
def mkFullyAssociativeCache (cache_size block_size : Int) (write_policy : String) :
    Except PyErr FAState :=
  if block_size = 0 then .error .zeroDivisionError else
  let num_blocks := Int.fdiv cache_size block_size
  match intLog2 block_size with
  | .error e => .error e
  | .ok offset_bits =>
    .ok { cache_size, block_size, num_blocks, write_policy, offset_bits,
          tag_bits := 32 - (offset_bits : Int),
          cache := (List.range num_blocks.toNat).map (fun i => (i, CacheBlock.init)),
          total_accesses := 0, hits := 0, misses := 0,
          memory_reads := 0, memory_writes := 0 }

/-- `FullyAssociativeCache.decompose_address`: `(tag, offset)`, no index. -/
def FAState.decompose_address (s : FAState) (address : Nat) : Nat × Nat :=
  let offset := address &&& ((1 <<< s.offset_bits) - 1)
  let tag := address >>> s.offset_bits
  (tag, offset)

/-- `FullyAssociativeCache._handle_write_hit`. -/
def FAState.handle_write_hit (s : FAState) (line_num address : Nat) (data : Option Int) :
    Except PyErr FAState :=
  match dict_get s.cache line_num with
  | none => .error .keyError
  | some cache_line =>
    if s.write_policy = "write-through" then
      .ok { s with
            cache := dict_set s.cache line_num
              { cache_line with data := some (data.getD (address : Int)), dirty := 0 },
            memory_writes := s.memory_writes + 1 }
    else
      .ok { s with
            cache := dict_set s.cache line_num
              { cache_line with data := some (data.getD (address : Int)), dirty := 1 } }

/-- `FullyAssociativeCache._fetch_from_memory`. -/
def FAState.fetch_from_memory (s : FAState) (line_num tag address : Nat) (operation : String)
    (data : Option Int) : Except PyErr FAState :=
  match dict_get s.cache line_num with
  | none => .error .keyError
  | some cache_line =>
    let s := { s with memory_reads := s.memory_reads + 1 }
    let cache_line := { cache_line with
      valid := 1, tag := some tag, data := some (data.getD (address : Int)) }
    if operation = "write" then
      if s.write_policy = "write-through" then
        .ok { s with
              cache := dict_set s.cache line_num { cache_line with dirty := 0 },
              memory_writes := s.memory_writes + 1 }
      else
        .ok { s with cache := dict_set s.cache line_num { cache_line with dirty := 1 } }
    else
      .ok { s with cache := dict_set s.cache line_num { cache_line with dirty := 0 } }

/-- `FullyAssociativeCache.access(address, operation, data)`: increments
`total_accesses`, decomposes the address, searches all lines; on a hit it
updates the LRU order and handles a write hit; on a miss it uses the first
empty line if any, otherwise evicts the LRU line (front of the order,
counting the dirty write-back under write-back), fetches from memory, and
marks the installed line most recently used. -/
def FAState.access (s0 : FAState) (address : Nat) (operation : String) (data : Option Int) :
    Except PyErr (AccessResp × FAState) :=
  let s := { s0 with total_accesses := s0.total_accesses + 1 }
  let tag := (s.decompose_address address).1
  let offset := (s.decompose_address address).2
  let resp : AccessResp :=
    { access_number := s.total_accesses, address, operation, tag,
      index := none, offset,
      hit := false, eviction := false, dirty_writeback := false,
      affected_line := none }
  match find_block s.cache tag with
  | some hit_line =>
    let s := { s with hits := s.hits + 1 }
    let resp := { resp with hit := true, affected_line := some hit_line }
    match move_to_end s.cache hit_line with
    | .error e => .error e
    | .ok cache' =>
      let s := { s with cache := cache' }
      if operation = "write" then
        match s.handle_write_hit hit_line address data with
        | .error e => .error e
        | .ok s' => .ok (resp, s')
      else
        .ok (resp, s)
  | none =>
    let s := { s with misses := s.misses + 1 }
    match find_empty s.cache with
    | some empty_line =>
      let resp := { resp with affected_line := some empty_line }
      match s.fetch_from_memory empty_line tag address operation data with
      | .error e => .error e
      | .ok s1 =>
        match move_to_end s1.cache empty_line with
        | .error e => .error e
        | .ok cache' => .ok (resp, { s1 with cache := cache' })
    | none =>
      match evict_lru s.cache with
      | none => .error .stopIteration
      | some target_line =>
        match dict_get s.cache target_line with
        | none => .error .keyError
        | some evicted_block =>
          let rs :=
            if s.write_policy = "write-back" ∧ evicted_block.dirty = 1 then
              ({ resp with
                  eviction := true, dirty_writeback := true,
                  affected_line := some target_line },
               { s with memory_writes := s.memory_writes + 1 })
            else
              ({ resp with eviction := true, affected_line := some target_line }, s)
          match rs.2.fetch_from_memory target_line tag address operation data with
          | .error e => .error e
          | .ok s1 =>
            match move_to_end s1.cache target_line with
            | .error e => .error e
            | .ok cache' => .ok (rs.1, { s1 with cache := cache' })

/-- Statistics snapshot of a fully-associative instance. -/
def FAState.get_statistics (s : FAState) : Statistics :=
  CacheSimulator.get_statistics s.total_accesses s.hits s.misses s.memory_reads s.memory_writes

/-- Process a list of accesses in order, keeping only the final state. -/
def FAState.run (s : FAState) : List MemAccess → Except PyErr FAState
  | [] => .ok s
  | a :: rest =>
    match s.access a.address a.operation a.data with
    | .error e => .error e
    | .ok (_, s') => s'.run rest

/-- Construct a fresh fully-associative cache and process accesses. -/
def faFresh (cache_size block_size : Int) (write_policy : String) (tr : List MemAccess) :
    Except PyErr FAState :=
  match mkFullyAssociativeCache cache_size block_size write_policy with
  | .error e => .error e
  | .ok s => s.run tr

/-! ## Ghost recency instrumentation

To state the LRU claim we record, alongside the real state, the access
number at which each line was last touched (hit or miss-fill): exactly the
accesses on which the code calls `_update_lru` on that line.  The map is an
association list from line number to last-touch access number; the real
step function is unchanged. -/

/-- Look up a line's last-touch access number. -/
def tlookup : List (Nat × Nat) → Nat → Option Nat
  | [], _ => none
  | p :: rest, k => if p.1 = k then some p.2 else tlookup rest k

/-- Record a touch of line `k` at access number `v`. -/
def tset : List (Nat × Nat) → Nat → Nat → List (Nat × Nat)
  | [], k, v => [(k, v)]
  | p :: rest, k, v => if p.1 = k then (k, v) :: rest else p :: tset rest k v

/-- Process accesses, recording for every access the line it touched
(the response's `affected_line`) at the current access number. -/
def FAState.ghostRun (s : FAState) (t : List (Nat × Nat)) :
    List MemAccess → Except PyErr (FAState × List (Nat × Nat))
  | [] => .ok (s, t)
  | a :: rest =>
    match s.access a.address a.operation a.data with
    | .error e => .error e
    | .ok (resp, s') =>
      let t' := match resp.affected_line with
        | some l => tset t l s'.total_accesses
        | none => t
      s'.ghostRun t' rest

/-- Fresh fully-associative cache with ghost recency instrumentation. -/
def faFreshGhost (cache_size block_size : Int) (write_policy : String) (tr : List MemAccess) :
    Except PyErr (FAState × List (Nat × Nat)) :=
  match mkFullyAssociativeCache cache_size block_size write_policy with
  | .error e => .error e
  | .ok s => s.ghostRun [] tr

/-- The configuration invariants of spec §3: positive sizes, power-of-two
block size and line count, exact division, block no larger than the cache. -/
def ConfigOK (cache_size block_size : Int) : Prop :=
  0 < cache_size ∧ 0 < block_size ∧
  (∃ k : Nat, block_size = 2 ^ k) ∧
  (∃ k : Nat, Int.fdiv cache_size block_size = 2 ^ k) ∧
  block_size ∣ cache_size ∧ block_size ≤ cache_size


/-- Ghost ordering for the LRU proof: if entry `p` has been touched then
entry `q` has been touched strictly later. -/
def TouchLt (t : List (Nat × Nat)) (p q : Nat × CacheBlock) : Prop :=
  ∀ x, tlookup t p.1 = some x → ∃ y, tlookup t q.1 = some y ∧ x < y

/-- Invariant tying the ordered-dict order of a fully-associative cache to
the ghost last-touch map: valid bits are 0/1, a line is valid exactly when
it has been touched, the dict lists lines in increasing last-touch order
(least recently used at the front), touch times never exceed the access
counter, and line numbers are unique. -/
structure FAInv (s : FAState) (t : List (Nat × Nat)) : Prop where
  valid01 : ∀ p ∈ s.cache, p.2.valid = 0 ∨ p.2.valid = 1
  touched : ∀ p ∈ s.cache, (p.2.valid = 1 ↔ (tlookup t p.1).isSome = true)
  ordered : s.cache.Pairwise (TouchLt t)
  bounded : ∀ k x, tlookup t k = some x → x ≤ s.total_accesses
  keys_nodup : (s.cache.map Prod.fst).Nodup

/-! ## Helper lemmas -/

theorem round2_zero : round2 0 = 0 := by norm_num [round2]

-- Evaluation of the constructors at the concrete 16-byte, 4-byte-block
-- configuration used by the scenario claims (witness inputs): isolated here
-- because `Nat.log2` does not reduce definitionally.
theorem mkDM_16_4 (wp : String) :
    mkDirectMappedCache 16 4 wp =
      .ok ⟨16, 4, 4, wp, 2, 2, 28, List.replicate 4 CacheBlock.init, 0, 0, 0, 0, 0⟩ := by
  simp [mkDirectMappedCache, intLog2, Nat.log2]

theorem mkFA_16_4 (wp : String) :
    mkFullyAssociativeCache 16 4 wp =
      .ok ⟨16, 4, 4, wp, 2, 30,
           [(0, CacheBlock.init), (1, CacheBlock.init), (2, CacheBlock.init),
            (3, CacheBlock.init)], 0, 0, 0, 0, 0⟩ := by
  simp [mkFullyAssociativeCache, intLog2, Nat.log2]
  decide

theorem list_set_of_get? {α : Type} {l : List α} {n : Nat} {b : α} (h : l.get? n = some b) :
    l.set n b = l := by
  induction l generalizing n with
  | nil => simp at h
  | cons x xs ih =>
    cases n with
    | zero => simp_all
    | succ m => simp_all

/-! ## Claim theorems -/

/-- **C7.** Address decomposition is a pure function of the address and the
configuration: for the direct-mapped variant
`offset = address &&& (2^offsetBits - 1)`,
`index = (address >>> offsetBits) &&& (2^indexBits - 1)`,
`tag = address >>> (offsetBits + indexBits)`; for the fully-associative
variant `offset = address &&& (2^offsetBits - 1)` and
`tag = address >>> offsetBits` with no index field — for every non-negative
integer address, the tag being a plain right shift with no clipping by any
address width. -/
theorem decompose_address_spec :
    (∀ (s : DMState) (address : Nat),
      s.decompose_address address =
        (address >>> (s.offset_bits + s.index_bits),
         (address >>> s.offset_bits) &&& (2 ^ s.index_bits - 1),
         address &&& (2 ^ s.offset_bits - 1))) ∧
    (∀ (s : FAState) (address : Nat),
      s.decompose_address address =
        (address >>> s.offset_bits, address &&& (2 ^ s.offset_bits - 1))) := by
  refine ⟨fun s address => ?_, fun s address => ?_⟩ <;>
    simp [DMState.decompose_address, FAState.decompose_address, Nat.one_shiftLeft]

/-- **C1 counterexample.** Construction with `cache_size = 15`,
`block_size = 4` does not fail: it produces a direct-mapped instance with
3 lines (`15 // 4`), `offset_bits = 2` and `index_bits = 1`, refuting the
claim that this configuration raises `ConfigurationError` with no instance
produced (no configuration validation exists in the engine). -/
theorem create_15_4_succeeds :
    ∃ s : DMState, mkDirectMappedCache 15 4 "write-back" = .ok s ∧
      s.cache.length = 3 ∧ s.offset_bits = 2 ∧ s.index_bits = 1 := by
  refine ⟨⟨15, 4, 3, "write-back", 2, 1, 29, List.replicate 3 CacheBlock.init,
          0, 0, 0, 0, 0⟩, ?_, rfl, rfl, rfl⟩
  simp [mkDirectMappedCache, intLog2, Nat.log2]

/-- **C1 (amended).** Cache construction performs no configuration
validation and raises no `ConfigurationError`: direct-mapped construction
produces an instance exactly when `block_size > 0` and
`cache_size // block_size > 0` (the only failures being the
`ZeroDivisionError`/`math domain error` from `//` and `log2`), and
fully-associative construction exactly when `block_size > 0`; power-of-two
and divisibility violations such as `cache_size = 15`, `block_size = 4` are
accepted. -/
theorem mkCache_ok_iff (cache_size block_size : Int) (write_policy : String) :
    ((∃ s, mkDirectMappedCache cache_size block_size write_policy = .ok s) ↔
      (0 < block_size ∧ 0 < Int.fdiv cache_size block_size)) ∧
    ((∃ s, mkFullyAssociativeCache cache_size block_size write_policy = .ok s) ↔
      0 < block_size) := by
  constructor
  · by_cases h0 : block_size = 0
    · simp [mkDirectMappedCache, h0]
    · by_cases h1 : block_size ≤ 0
      · simp only [mkDirectMappedCache, intLog2, if_neg h0, if_pos h1]
        simp
        intro hbs
        exact absurd hbs (not_lt.mpr h1)
      · by_cases h2 : Int.fdiv cache_size block_size ≤ 0
        · simp only [mkDirectMappedCache, intLog2, if_neg h0, if_neg h1, if_pos h2]
          simp
          intro hbs
          exact h2
        · simp only [mkDirectMappedCache, intLog2, if_neg h0, if_neg h1, if_neg h2]
          simp
          exact ⟨not_le.mp h1, not_le.mp h2⟩
  · by_cases h0 : block_size = 0
    · simp [mkFullyAssociativeCache, h0]
    · by_cases h1 : block_size ≤ 0
      · simp only [mkFullyAssociativeCache, intLog2, if_neg h0, if_pos h1]
        simp
        exact h1
      · simp only [mkFullyAssociativeCache, intLog2, if_neg h0, if_neg h1]
        simp
        exact not_le.mp h1

/-- **C8.** For a direct-mapped, write-through cache of 16 bytes with
4-byte blocks, the all-write address sequence `[0,4,8,12,0,4,8,12]` gives
exactly 4 misses (the first round) then 4 hits (the second round), with
final `memory_writes = 8` and `memory_reads = 4`. -/
theorem write_through_scenario_16_4 :
    (dmFreshTrace 16 4 "write-through"
        [⟨0, "write", none⟩, ⟨4, "write", none⟩, ⟨8, "write", none⟩, ⟨12, "write", none⟩,
         ⟨0, "write", none⟩, ⟨4, "write", none⟩, ⟨8, "write", none⟩, ⟨12, "write", none⟩]).map
        (fun p => (p.1.map AccessResp.hit, p.2.misses, p.2.hits,
                   p.2.memory_writes, p.2.memory_reads)) =
      .ok ([false, false, false, false, true, true, true, true], 4, 4, 8, 4) := by
  simp only [dmFreshTrace, mkDM_16_4]
  rfl

/-- **C2 counterexample.** A reachable statistics state (one hit out of two
accesses on a fresh direct-mapped cache) where the exposed `hit_ratio` is
`50` — the percentage `hits / totalAccesses * 100` — and not the claimed
fraction `hits / totalAccesses = 1/2` (likewise for `miss_ratio`). -/
theorem get_statistics_ratio_cex :
    ∃ s : DMState,
      dmFresh 16 4 "write-through" [⟨0, "read", none⟩, ⟨0, "read", none⟩] = .ok s ∧
      s.total_accesses = 2 ∧ s.hits = 1 ∧
      s.get_statistics.hit_ratio = 50 ∧
      s.get_statistics.hit_ratio ≠ (s.hits : ℚ) / (s.total_accesses : ℚ) ∧
      s.get_statistics.miss_ratio ≠ (s.misses : ℚ) / (s.total_accesses : ℚ) := by
  refine ⟨⟨16, 4, 4, "write-through", 2, 2, 28,
          [⟨1, some 0, some 0, 0⟩, CacheBlock.init, CacheBlock.init, CacheBlock.init],
          2, 1, 1, 1, 0⟩, ?_, rfl, rfl, ?_, ?_, ?_⟩
  · simp only [dmFresh, mkDM_16_4]
    rfl
  · norm_num [DMState.get_statistics, CacheSimulator.get_statistics, round2]
  · norm_num [DMState.get_statistics, CacheSimulator.get_statistics, round2]
  · norm_num [DMState.get_statistics, CacheSimulator.get_statistics, round2]

/-- **C2 (amended).** For every reachable statistics state (either cache
variant, any access sequence from a fresh cache), the exposed ratios are
percentages rounded to two decimals — `hitRatio = round₂(100·hits/totalAccesses)`
and `missRatio = round₂(100·misses/totalAccesses)`, both `0` when
`totalAccesses = 0` — and `totalMemoryTraffic = memoryReads + memoryWrites`
holds as claimed. -/
theorem get_statistics_formulas (cache_size block_size : Int) (write_policy : String)
    (tr : List MemAccess) :
    (∀ s : DMState, dmFresh cache_size block_size write_policy tr = .ok s →
      s.get_statistics.total_memory_traffic =
        s.get_statistics.memory_reads + s.get_statistics.memory_writes ∧
      s.get_statistics.hit_ratio =
        (if 0 < s.total_accesses then round2 ((s.hits : ℚ) / (s.total_accesses : ℚ) * 100)
         else 0) ∧
      s.get_statistics.miss_ratio =
        (if 0 < s.total_accesses then round2 ((s.misses : ℚ) / (s.total_accesses : ℚ) * 100)
         else 0)) ∧
    (∀ s : FAState, faFresh cache_size block_size write_policy tr = .ok s →
      s.get_statistics.total_memory_traffic =
        s.get_statistics.memory_reads + s.get_statistics.memory_writes ∧
      s.get_statistics.hit_ratio =
        (if 0 < s.total_accesses then round2 ((s.hits : ℚ) / (s.total_accesses : ℚ) * 100)
         else 0) ∧
      s.get_statistics.miss_ratio =
        (if 0 < s.total_accesses then round2 ((s.misses : ℚ) / (s.total_accesses : ℚ) * 100)
         else 0)) := by
  constructor <;> intro s _ <;>
    refine ⟨rfl, ?_, ?_⟩ <;>
    · simp only [DMState.get_statistics, FAState.get_statistics, CacheSimulator.get_statistics]
      split <;> simp [round2_zero]

/-- **C2 witness.** The amended statistics formulas instantiated on the
concrete reachable state after one read on a fresh direct-mapped cache. -/
theorem get_statistics_formulas_witness :
    ∃ s : DMState, dmFresh 16 4 "write-through" [⟨0, "read", none⟩] = .ok s ∧
      (s.get_statistics.total_memory_traffic =
        s.get_statistics.memory_reads + s.get_statistics.memory_writes ∧
      s.get_statistics.hit_ratio =
        (if 0 < s.total_accesses then round2 ((s.hits : ℚ) / (s.total_accesses : ℚ) * 100)
         else 0) ∧
      s.get_statistics.miss_ratio =
        (if 0 < s.total_accesses then round2 ((s.misses : ℚ) / (s.total_accesses : ℚ) * 100)
         else 0)) := by
  have hrun : dmFresh 16 4 "write-through" [⟨0, "read", none⟩] =
      .ok ⟨16, 4, 4, "write-through", 2, 2, 28,
           [⟨1, some 0, some 0, 0⟩, CacheBlock.init, CacheBlock.init, CacheBlock.init],
           1, 0, 1, 1, 0⟩ := by
    simp only [dmFresh, mkDM_16_4]
    rfl
  exact ⟨_, hrun, (get_statistics_formulas 16 4 "write-through" [⟨0, "read", none⟩]).1 _ hrun⟩

theorem DMState.dm_handle_write_hit_eq {s : DMState} {index address : Nat} {data : Option Int}
    {s' : DMState} (h : s.handle_write_hit index address data = .ok s') :
    ∃ b, s.cache.get? index = some b ∧
      s' = { s with
             cache := s.cache.set index
               { b with
                 data := some (data.getD (address : Int)),
                 dirty := if s.write_policy = "write-through" then 0 else 1 },
             memory_writes :=
               s.memory_writes + (if s.write_policy = "write-through" then 1 else 0) } := by
  unfold DMState.handle_write_hit at h
  split at h
  · simp at h
  · rename_i b hb
    split at h <;> rename_i hwp <;>
      simp only [Except.ok.injEq] at h <;> subst h <;>
      exact ⟨b, hb, by simp [hwp]⟩

theorem DMState.dm_fetch_from_memory_eq {s : DMState} {index tag address : Nat}
    {operation : String} {data : Option Int} {s' : DMState}
    (h : s.fetch_from_memory index tag address operation data = .ok s') :
    ∃ b, s.cache.get? index = some b ∧
      s' = { s with
             cache := s.cache.set index
               { valid := 1, tag := some tag, data := some (data.getD (address : Int)),
                 dirty := if operation = "write" then
                            (if s.write_policy = "write-through" then 0 else 1) else 0 },
             memory_reads := s.memory_reads + 1,
             memory_writes := s.memory_writes +
               (if operation = "write" ∧ s.write_policy = "write-through" then 1 else 0) } := by
  unfold DMState.fetch_from_memory at h
  split at h
  · simp at h
  · rename_i b hb
    refine ⟨b, hb, ?_⟩
    simp only [] at h
    split at h
    · rename_i hop
      split at h <;> rename_i hwp <;>
        simp only [Except.ok.injEq] at h <;> subst h <;> simp [hop, hwp]
    · rename_i hop
      simp only [Except.ok.injEq] at h
      subst h
      simp [hop]

theorem DMState.dm_access_spec {s : DMState} {address : Nat} {operation : String}
    {data : Option Int} {resp : AccessResp} {s' : DMState}
    (h : s.access address operation data = .ok (resp, s')) :
    s'.write_policy = s.write_policy ∧
    s'.offset_bits = s.offset_bits ∧
    s'.index_bits = s.index_bits ∧
    s'.num_blocks = s.num_blocks ∧
    s'.cache.length = s.cache.length ∧
    s'.total_accesses = s.total_accesses + 1 ∧
    resp.access_number = s.total_accesses + 1 ∧
    resp.affected_line = some (s.decompose_address address).2.1 ∧
    ((resp.hit = true ∧ s'.hits = s.hits + 1 ∧ s'.misses = s.misses) ∨
     (resp.hit = false ∧ s'.misses = s.misses + 1 ∧ s'.hits = s.hits)) ∧
    s'.memory_reads = s.memory_reads + (if resp.hit = true then 0 else 1) ∧
    s'.memory_writes = s.memory_writes + (if resp.dirty_writeback = true then 1 else 0) +
      (if operation = "write" ∧ s.write_policy = "write-through" then 1 else 0) ∧
    ∃ b b', s.cache.get? (s.decompose_address address).2.1 = some b ∧
      s'.cache = s.cache.set (s.decompose_address address).2.1 b' ∧
      (resp.hit = true ↔ (b.valid = 1 ∧ b.tag = some (s.decompose_address address).1)) ∧
      (resp.eviction = true ↔ (resp.hit = false ∧ b.valid = 1)) ∧
      (resp.dirty_writeback = true ↔
        (resp.eviction = true ∧ s.write_policy = "write-back" ∧ b.dirty = 1)) ∧
      (resp.hit = false → b'.valid = 1 ∧ b'.tag = some (s.decompose_address address).1 ∧
        b'.dirty = (if operation = "write" then
                     (if s.write_policy = "write-through" then 0 else 1) else 0)) ∧
      (resp.hit = true ∧ operation ≠ "write" → b' = b) ∧
      (resp.hit = true ∧ operation = "write" → b'.valid = b.valid ∧ b'.tag = b.tag ∧
        b'.dirty = (if s.write_policy = "write-through" then 0 else 1)) := by
  unfold DMState.access at h
  dsimp only [DMState.decompose_address] at h ⊢
  split at h
  · simp at h
  · rename_i b hb
    split at h
    · rename_i hhit
      split at h
      · rename_i hop
        split at h
        · simp at h
        · rename_i s1 hwh
          simp only [Except.ok.injEq, Prod.mk.injEq] at h
          obtain ⟨hresp, hs⟩ := h
          subst hresp
          subst hs
          obtain ⟨bb, hbb, hs1⟩ := DMState.dm_handle_write_hit_eq hwh
          dsimp only [] at hbb hs1
          rw [hb] at hbb
          injection hbb with hbbe
          subst hbbe
          subst hs1
          refine ⟨rfl, rfl, rfl, rfl, by simp, rfl, rfl, rfl,
                  Or.inl ⟨rfl, rfl, rfl⟩, by simp, by simp [hop], b, _, hb, rfl,
                  by simp [hhit.1, hhit.2], by simp, by simp, by simp,
                  by simp [hop], by simp⟩
      · rename_i hop
        simp only [Except.ok.injEq, Prod.mk.injEq] at h
        obtain ⟨hresp, hs⟩ := h
        subst hresp
        subst hs
        refine ⟨rfl, rfl, rfl, rfl, by simp, rfl, rfl, rfl,
                Or.inl ⟨rfl, rfl, rfl⟩, by simp, by simp [hop], b, b, hb,
                (list_set_of_get? hb).symm,
                by simp [hhit.1, hhit.2], by simp, by simp, by simp,
                by simp, by simp [hop]⟩
    · rename_i hmiss
      by_cases hv : b.valid = 1
      · rw [if_pos hv] at h
        by_cases hwb : s.write_policy = "write-back" ∧ b.dirty = 1
        · rw [if_pos hwb] at h
          dsimp only [] at h
          split at h
          · simp at h
          · rename_i s1 hf
            simp only [Except.ok.injEq, Prod.mk.injEq] at h
            obtain ⟨hresp, hs⟩ := h
            subst hresp
            subst hs
            obtain ⟨bb, hbb, hs1⟩ := DMState.dm_fetch_from_memory_eq hf
            dsimp only [] at hbb hs1
            rw [hb] at hbb
            injection hbb with hbbe
            subst hbbe
            subst hs1
            refine ⟨rfl, rfl, rfl, rfl, by simp, rfl, rfl, rfl,
                    Or.inr ⟨rfl, rfl, rfl⟩, by simp, by simp, b, _, hb, rfl,
                    by simp [hmiss], by simp [hv], by simp [hwb.1, hwb.2],
                    by simp, by simp, by simp⟩
        · rw [if_neg hwb] at h
          dsimp only [] at h
          split at h
          · simp at h
          · rename_i s1 hf
            simp only [Except.ok.injEq, Prod.mk.injEq] at h
            obtain ⟨hresp, hs⟩ := h
            subst hresp
            subst hs
            obtain ⟨bb, hbb, hs1⟩ := DMState.dm_fetch_from_memory_eq hf
            dsimp only [] at hbb hs1
            rw [hb] at hbb
            injection hbb with hbbe
            subst hbbe
            subst hs1
            refine ⟨rfl, rfl, rfl, rfl, by simp, rfl, rfl, rfl,
                    Or.inr ⟨rfl, rfl, rfl⟩, by simp, by simp, b, _, hb, rfl,
                    by simp [hmiss], by simp [hv], ?_,
                    by simp, by simp, by simp⟩
            simp [hwb]
      · rw [if_neg hv] at h
        dsimp only [] at h
        split at h
        · simp at h
        · rename_i s1 hf
          simp only [Except.ok.injEq, Prod.mk.injEq] at h
          obtain ⟨hresp, hs⟩ := h
          subst hresp
          subst hs
          obtain ⟨bb, hbb, hs1⟩ := DMState.dm_fetch_from_memory_eq hf
          dsimp only [] at hbb hs1
          rw [hb] at hbb
          injection hbb with hbbe
          subst hbbe
          subst hs1
          refine ⟨rfl, rfl, rfl, rfl, by simp, rfl, rfl, rfl,
                  Or.inr ⟨rfl, rfl, rfl⟩, by simp, by simp, b, _, hb, rfl,
                  by simp [hmiss], by simp [hv], by simp [hv],
                  by simp, by simp, by simp⟩

theorem except_isOk_iff {eps alf : Type} {x : Except eps alf} :
    x.isOk = true ↔ ∃ a, x = .ok a := by
  cases x <;> simp [Except.isOk, Except.toBool]

theorem DMState.dm_handle_write_hit_no_error {s : DMState} {index address : Nat}
    {data : Option Int} {e : PyErr} (hlen : index < s.cache.length) :
    ¬ s.handle_write_hit index address data = .error e := by
  intro h
  unfold DMState.handle_write_hit at h
  rw [List.get?_eq_get hlen] at h
  dsimp only [] at h
  split at h <;> simp at h

theorem DMState.dm_fetch_from_memory_no_error {s : DMState} {index tag address : Nat}
    {operation : String} {data : Option Int} {e : PyErr} (hlen : index < s.cache.length) :
    ¬ s.fetch_from_memory index tag address operation data = .error e := by
  intro h
  unfold DMState.fetch_from_memory at h
  rw [List.get?_eq_get hlen] at h
  dsimp only [] at h
  split at h
  · split at h <;> simp at h
  · simp at h

theorem DMState.access_ok_of_le {s : DMState} (address : Nat) (operation : String)
    (data : Option Int) (hlen : 2 ^ s.index_bits ≤ s.cache.length) :
    ∃ p, s.access address operation data = .ok p := by
  have hidx : (address >>> s.offset_bits) &&& (1 <<< s.index_bits - 1) < s.cache.length := by
    rw [Nat.one_shiftLeft]
    have h1 : (address >>> s.offset_bits) &&& (2 ^ s.index_bits - 1) ≤ 2 ^ s.index_bits - 1 :=
      Nat.and_le_right
    have h2 : 0 < 2 ^ s.index_bits := Nat.two_pow_pos _
    omega
  rw [← except_isOk_iff]
  unfold DMState.access
  dsimp only [DMState.decompose_address]
  split
  · rename_i heq
    rw [List.get?_eq_get hidx] at heq
    simp at heq
  · rename_i b hb
    split
    · split
      · split
        · rename_i e heq
          exact absurd heq (DMState.dm_handle_write_hit_no_error hidx)
        · rfl
      · rfl
    · by_cases hv : b.valid = 1
      · rw [if_pos hv]
        by_cases hwb : s.write_policy = "write-back" ∧ b.dirty = 1
        · rw [if_pos hwb]
          dsimp only []
          split
          · rename_i e heq
            exact absurd heq (DMState.dm_fetch_from_memory_no_error hidx)
          · rfl
        · rw [if_neg hwb]
          dsimp only []
          split
          · rename_i e heq
            exact absurd heq (DMState.dm_fetch_from_memory_no_error hidx)
          · rfl
      · rw [if_neg hv]
        dsimp only []
        split
        · rename_i e heq
          exact absurd heq (DMState.dm_fetch_from_memory_no_error hidx)
        · rfl

theorem DMState.dm_run_isOk {tr : List MemAccess} {s : DMState}
    (hlen : 2 ^ s.index_bits ≤ s.cache.length) :
    ∃ s', s.run tr = .ok s' := by
  induction tr generalizing s with
  | nil => exact ⟨s, rfl⟩
  | cons a rest ih =>
    obtain ⟨⟨r, s1⟩, hok⟩ := DMState.access_ok_of_le a.address a.operation a.data hlen
    unfold DMState.run
    rw [hok]
    obtain ⟨_, _, c3, _, c5, _⟩ := DMState.dm_access_spec hok
    exact ih (by rw [c5, c3]; exact hlen)

theorem DMState.dm_run_hits_misses {tr : List MemAccess} {s s' : DMState}
    (h : s.run tr = .ok s') (hinv : s.hits + s.misses = s.total_accesses) :
    s'.hits + s'.misses = s'.total_accesses := by
  induction tr generalizing s with
  | nil =>
    unfold DMState.run at h
    simp only [Except.ok.injEq] at h
    subst h
    exact hinv
  | cons a rest ih =>
    unfold DMState.run at h
    split at h
    · simp at h
    · rename_i r s1 hp
      obtain ⟨_, _, _, _, _, ht, _, _, hcnt, _⟩ := DMState.dm_access_spec hp
      refine ih h ?_
      rcases hcnt with ⟨_, h1, h2⟩ | ⟨_, h1, h2⟩ <;> omega

theorem DMState.dm_run_wt_clean {tr : List MemAccess} {s s' : DMState}
    (h : s.run tr = .ok s') (hwp : s.write_policy = "write-through")
    (hclean : ∀ b ∈ s.cache, b.dirty = 0) :
    (∀ b ∈ s'.cache, b.dirty = 0) ∧ s'.write_policy = "write-through" := by
  induction tr generalizing s with
  | nil =>
    unfold DMState.run at h
    simp only [Except.ok.injEq] at h
    subst h
    exact ⟨hclean, hwp⟩
  | cons a rest ih =>
    unfold DMState.run at h
    split at h
    · simp at h
    · rename_i r s1 hp
      obtain ⟨hwp1, _, _, _, _, _, _, _, _, _, _,
        b, b', hget, hset, _, _, _, hmissb, hrb, hwb⟩ := DMState.dm_access_spec hp
      refine ih h (by rw [hwp1]; exact hwp) ?_
      intro c hc
      rw [hset] at hc
      rcases List.mem_or_eq_of_mem_set hc with hc | hc
      · exact hclean c hc
      · subst hc
        by_cases hhit : r.hit = true
        · by_cases hop : a.operation = "write"
          · rcases hwb ⟨hhit, hop⟩ with ⟨_, _, hd⟩
            rw [hd, if_pos hwp]
          · rw [hrb ⟨hhit, hop⟩]
            exact hclean b (List.get?_mem hget)
        · rcases hmissb (by simpa using hhit) with ⟨_, _, hd⟩
          rw [hd, hwp]
          simp

theorem mkDirectMappedCache_pos_ok (cache_size block_size : Int) (write_policy : String)
    (hbs : 0 < block_size) (hnb : 0 < Int.fdiv cache_size block_size) :
    mkDirectMappedCache cache_size block_size write_policy = .ok
      { cache_size, block_size, num_blocks := Int.fdiv cache_size block_size, write_policy,
        offset_bits := Nat.log2 block_size.toNat,
        index_bits := Nat.log2 (Int.fdiv cache_size block_size).toNat,
        tag_bits := 32 - (Nat.log2 (Int.fdiv cache_size block_size).toNat : Int) -
          (Nat.log2 block_size.toNat : Int),
        cache := List.replicate (Int.fdiv cache_size block_size).toNat CacheBlock.init,
        total_accesses := 0, hits := 0, misses := 0, memory_reads := 0, memory_writes := 0 } := by
  unfold mkDirectMappedCache intLog2
  rw [if_neg (by omega), if_neg (by omega)]
  dsimp only []
  rw [if_neg (by omega)]

theorem dmFresh_isOk (cache_size block_size : Int) (write_policy : String)
    (tr : List MemAccess) (hbs : 0 < block_size)
    (hnb : 0 < Int.fdiv cache_size block_size) :
    ∃ s', dmFresh cache_size block_size write_policy tr = .ok s' := by
  unfold dmFresh
  rw [mkDirectMappedCache_pos_ok cache_size block_size write_policy hbs hnb]
  exact DMState.dm_run_isOk (by
    simp only [List.length_replicate]
    exact Nat.log2_self_le (by omega))

/-! ### Ordered-dict lemmas for the fully-associative cache -/

theorem dict_get_append_left {c1 c2 : List (Nat × CacheBlock)} {k : Nat}
    (h : ∀ p ∈ c1, p.1 ≠ k) : dict_get (c1 ++ c2) k = dict_get c2 k := by
  induction c1 with
  | nil => rfl
  | cons p rest ih =>
    simp only [List.cons_append, dict_get]
    rw [if_neg (h p (by simp))]
    exact ih (fun q hq => h q (by simp [hq]))

theorem dict_get_cons_self {k : Nat} {b : CacheBlock} {c : List (Nat × CacheBlock)} :
    dict_get ((k, b) :: c) k = some b := by
  unfold dict_get
  simp

theorem dict_set_append_left {c1 c2 : List (Nat × CacheBlock)} {k : Nat} {b : CacheBlock}
    (h : ∀ p ∈ c1, p.1 ≠ k) : dict_set (c1 ++ c2) k b = c1 ++ dict_set c2 k b := by
  induction c1 with
  | nil => rfl
  | cons p rest ih =>
    simp only [List.cons_append, dict_set]
    rw [if_neg (h p (by simp))]
    exact congrArg (p :: ·) (ih (fun q hq => h q (by simp [hq])))

theorem dict_set_cons_self {k : Nat} {b0 b : CacheBlock} {c : List (Nat × CacheBlock)} :
    dict_set ((k, b0) :: c) k b = (k, b) :: c := by
  unfold dict_set
  simp

theorem move_to_end_of_decomp {c1 c2 : List (Nat × CacheBlock)} {k : Nat} {b : CacheBlock}
    (h : ∀ p ∈ c1, p.1 ≠ k) :
    move_to_end (c1 ++ (k, b) :: c2) k = .ok ((c1 ++ c2) ++ [(k, b)]) := by
  induction c1 with
  | nil =>
    simp only [List.nil_append, move_to_end]
    simp
  | cons p rest ih =>
    simp only [List.cons_append, move_to_end]
    rw [if_neg (h p (by simp)),
        show rest.append ((k, b) :: c2) = rest ++ (k, b) :: c2 from rfl,
        ih (fun q hq => h q (by simp [hq]))]

theorem move_to_end_decomp {c : List (Nat × CacheBlock)} {k : Nat}
    {c' : List (Nat × CacheBlock)} (h : move_to_end c k = .ok c') :
    ∃ b c1 c2, c = c1 ++ (k, b) :: c2 ∧ (∀ p ∈ c1, p.1 ≠ k) ∧
      c' = (c1 ++ c2) ++ [(k, b)] := by
  induction c generalizing c' with
  | nil => simp [move_to_end] at h
  | cons p rest ih =>
    obtain ⟨p1, p2⟩ := p
    unfold move_to_end at h
    split at h
    · rename_i hk
      dsimp only [] at hk
      subst hk
      simp only [Except.ok.injEq] at h
      refine ⟨p2, [], rest, rfl, by simp, by simp [← h]⟩
    · rename_i hk
      split at h
      · simp at h
      · rename_i c'' hc
        simp only [Except.ok.injEq] at h
        obtain ⟨b, c1, c2, he, hn, he2⟩ := ih hc
        refine ⟨b, (p1, p2) :: c1, c2, by simp [he], ?_, by simp [← h, he2]⟩
        intro q hq
        rcases List.mem_cons.mp hq with hq | hq
        · subst hq
          exact hk
        · exact hn q hq

theorem find_block_some {c : List (Nat × CacheBlock)} {tag l : Nat}
    (h : find_block c tag = some l) :
    ∃ b, (l, b) ∈ c ∧ b.valid = 1 ∧ b.tag = some tag := by
  induction c with
  | nil => simp [find_block] at h
  | cons p rest ih =>
    unfold find_block at h
    split at h
    · rename_i hcond
      simp only [Option.some.injEq] at h
      subst h
      exact ⟨p.2, by simp, hcond.1, hcond.2⟩
    · obtain ⟨b, hb, hv, ht⟩ := ih h
      exact ⟨b, by simp [hb], hv, ht⟩

theorem find_empty_some {c : List (Nat × CacheBlock)} {l : Nat}
    (h : find_empty c = some l) : ∃ b, (l, b) ∈ c ∧ b.valid = 0 := by
  induction c with
  | nil => simp [find_empty] at h
  | cons p rest ih =>
    unfold find_empty at h
    split at h
    · rename_i hcond
      simp only [Option.some.injEq] at h
      subst h
      exact ⟨p.2, by simp, hcond⟩
    · obtain ⟨b, hb, hv⟩ := ih h
      exact ⟨b, by simp [hb], hv⟩

theorem find_empty_none {c : List (Nat × CacheBlock)} (h : find_empty c = none) :
    ∀ p ∈ c, ¬ p.2.valid = 0 := by
  induction c with
  | nil => simp
  | cons p rest ih =>
    unfold find_empty at h
    split at h
    · simp at h
    · rename_i hcond
      intro q hq
      rcases List.mem_cons.mp hq with hq | hq
      · subst hq
        exact hcond
      · exact ih h q hq

theorem mem_nodup_decomp {c : List (Nat × CacheBlock)} {l : Nat} {b : CacheBlock}
    (hnd : (c.map Prod.fst).Nodup) (hm : (l, b) ∈ c) :
    ∃ c1 c2, c = c1 ++ (l, b) :: c2 ∧ (∀ p ∈ c1, p.1 ≠ l) ∧ (∀ p ∈ c2, p.1 ≠ l) := by
  induction c with
  | nil => simp at hm
  | cons p rest ih =>
    simp only [List.map_cons, List.nodup_cons] at hnd
    rcases List.mem_cons.mp hm with hm | hm
    · subst hm
      refine ⟨[], rest, rfl, by simp, ?_⟩
      intro q hq hql
      refine hnd.1 ?_
      show l ∈ rest.map Prod.fst
      rw [← hql]
      exact List.mem_map_of_mem Prod.fst hq
    · obtain ⟨c1, c2, he, h1, h2⟩ := ih hnd.2 hm
      refine ⟨p :: c1, c2, by simp [he], ?_, h2⟩
      intro q hq
      rcases List.mem_cons.mp hq with hq | hq
      · subst hq
        intro hql
        refine hnd.1 ?_
        rw [hql, he]
        simp
      · exact h1 q hq

theorem keys_decomp_c2_ne {c1 c2 : List (Nat × CacheBlock)} {l : Nat} {b : CacheBlock}
    (hnd : (((c1 ++ (l, b) :: c2)).map Prod.fst).Nodup) : ∀ p ∈ c2, p.1 ≠ l := by
  intro q hq hql
  simp only [List.map_append, List.map_cons, List.nodup_append, List.nodup_cons] at hnd
  refine hnd.2.1.1 ?_
  rw [← hql]
  exact List.mem_map_of_mem Prod.fst hq

theorem nodup_keys_move {c1 c2 : List (Nat × CacheBlock)} {l : Nat} {bOld bNew : CacheBlock}
    (hnd : ((c1 ++ (l, bOld) :: c2).map Prod.fst).Nodup) :
    (((c1 ++ c2) ++ [(l, bNew)]).map Prod.fst).Nodup := by
  refine List.Perm.nodup ?_ hnd
  simp only [List.map_append, List.map_cons, List.map_nil]
  exact List.Perm.trans List.perm_middle
    ((List.perm_append_singleton _ _).symm)

theorem FAState.fa_handle_write_hit_eq {s : FAState} {line_num address : Nat} {data : Option Int}
    {s' : FAState} (h : s.handle_write_hit line_num address data = .ok s') :
    ∃ b, dict_get s.cache line_num = some b ∧
      s' = { s with
             cache := dict_set s.cache line_num
               { b with
                 data := some (data.getD (address : Int)),
                 dirty := if s.write_policy = "write-through" then 0 else 1 },
             memory_writes :=
               s.memory_writes + (if s.write_policy = "write-through" then 1 else 0) } := by
  unfold FAState.handle_write_hit at h
  split at h
  · simp at h
  · rename_i b hb
    split at h <;> rename_i hwp <;>
      simp only [Except.ok.injEq] at h <;> subst h <;>
      exact ⟨b, hb, by simp [hwp]⟩

theorem FAState.fa_fetch_from_memory_eq {s : FAState} {line_num tag address : Nat}
    {operation : String} {data : Option Int} {s' : FAState}
    (h : s.fetch_from_memory line_num tag address operation data = .ok s') :
    ∃ b, dict_get s.cache line_num = some b ∧
      s' = { s with
             cache := dict_set s.cache line_num
               { valid := 1, tag := some tag, data := some (data.getD (address : Int)),
                 dirty := if operation = "write" then
                            (if s.write_policy = "write-through" then 0 else 1) else 0 },
             memory_reads := s.memory_reads + 1,
             memory_writes := s.memory_writes +
               (if operation = "write" ∧ s.write_policy = "write-through" then 1 else 0) } := by
  unfold FAState.fetch_from_memory at h
  split at h
  · simp at h
  · rename_i b hb
    refine ⟨b, hb, ?_⟩
    simp only [] at h
    split at h
    · rename_i hop
      split at h <;> rename_i hwp <;>
        simp only [Except.ok.injEq] at h <;> subst h <;> simp [hop, hwp]
    · rename_i hop
      simp only [Except.ok.injEq] at h
      subst h
      simp [hop]

theorem mem_eq_of_keys {c1 c2 : List (Nat × CacheBlock)} {l : Nat} {b b0 : CacheBlock}
    (h1 : ∀ p ∈ c1, p.1 ≠ l) (h2 : ∀ p ∈ c2, p.1 ≠ l)
    (hm : (l, b) ∈ c1 ++ (l, b0) :: c2) : b = b0 := by
  rcases List.mem_append.mp hm with hm | hm
  · exact absurd rfl (h1 _ hm)
  · rcases List.mem_cons.mp hm with hm | hm
    · exact (Prod.mk.injEq _ _ _ _ ▸ hm).2
    · exact absurd rfl (h2 _ hm)

theorem move_to_end_cons_self {k : Nat} {b : CacheBlock} {c : List (Nat × CacheBlock)} :
    move_to_end ((k, b) :: c) k = .ok (c ++ [(k, b)]) := by
  simp only [move_to_end]
  simp

theorem FAState.fa_access_spec {s : FAState} {address : Nat} {operation : String}
    {data : Option Int} {resp : AccessResp} {s' : FAState}
    (hnd : (s.cache.map Prod.fst).Nodup)
    (h : s.access address operation data = .ok (resp, s')) :
    s'.write_policy = s.write_policy ∧
    s'.offset_bits = s.offset_bits ∧
    s'.num_blocks = s.num_blocks ∧
    s'.total_accesses = s.total_accesses + 1 ∧
    resp.access_number = s.total_accesses + 1 ∧
    ((resp.hit = true ∧ s'.hits = s.hits + 1 ∧ s'.misses = s.misses) ∨
     (resp.hit = false ∧ s'.misses = s.misses + 1 ∧ s'.hits = s.hits)) ∧
    s'.memory_reads = s.memory_reads + (if resp.hit = true then 0 else 1) ∧
    s'.memory_writes = s.memory_writes + (if resp.dirty_writeback = true then 1 else 0) +
      (if operation = "write" ∧ s.write_policy = "write-through" then 1 else 0) ∧
    (resp.eviction = true → find_empty s.cache = none) ∧
    ∃ l bOld bNew c1 c2,
      resp.affected_line = some l ∧
      s.cache = c1 ++ (l, bOld) :: c2 ∧
      (∀ p ∈ c1, p.1 ≠ l) ∧ (∀ p ∈ c2, p.1 ≠ l) ∧
      s'.cache = (c1 ++ c2) ++ [(l, bNew)] ∧
      bNew.valid = 1 ∧
      (resp.eviction = true → c1 = []) ∧
      (resp.dirty_writeback = true ↔
        (resp.eviction = true ∧ s.write_policy = "write-back" ∧ bOld.dirty = 1)) ∧
      (resp.hit = true → bOld.valid = 1) ∧
      (resp.hit = true ∧ operation ≠ "write" → bNew = bOld) ∧
      (resp.hit = false → bNew.tag = some (address >>> s.offset_bits) ∧
        bNew.dirty = (if operation = "write" then
                       (if s.write_policy = "write-through" then 0 else 1) else 0)) ∧
      (resp.hit = true ∧ operation = "write" → bNew.valid = bOld.valid ∧
        bNew.dirty = (if s.write_policy = "write-through" then 0 else 1)) ∧
      (resp.hit = true → resp.eviction = false) := by
  unfold FAState.access at h
  dsimp only [FAState.decompose_address] at h
  split at h
  · rename_i hit_line hfb
    split at h
    · simp at h
    · rename_i cache' hmv
      obtain ⟨bm, c1, c2, hce, hc1, hce2⟩ := move_to_end_decomp hmv
      have hc2 : ∀ p ∈ c2, p.1 ≠ hit_line := keys_decomp_c2_ne (hce ▸ hnd)
      obtain ⟨bf, hmem, hfv, hft⟩ := find_block_some hfb
      have hbm : bf = bm := mem_eq_of_keys hc1 hc2 (hce ▸ hmem)
      subst hbm
      have hkeys : ∀ p ∈ c1 ++ c2, p.1 ≠ hit_line := by
        intro p hp
        rcases List.mem_append.mp hp with hp | hp
        · exact hc1 p hp
        · exact hc2 p hp
      split at h
      · rename_i hop
        split at h
        · simp at h
        · rename_i s1 hwh
          simp only [Except.ok.injEq, Prod.mk.injEq] at h
          obtain ⟨hresp, hs⟩ := h
          subst hresp
          subst hs
          obtain ⟨bb, hbg, hs1⟩ := FAState.fa_handle_write_hit_eq hwh
          dsimp only [] at hbg hs1
          rw [hce2, dict_get_append_left hkeys, dict_get_cons_self] at hbg
          injection hbg with hbg
          subst hbg
          subst hs1
          refine ⟨rfl, rfl, rfl, rfl, rfl, Or.inl ⟨rfl, rfl, rfl⟩, by simp,
                  by simp [hop], by simp, hit_line, bf,
                  ⟨bf.valid, bf.tag, some (data.getD (address : Int)), if s.write_policy = "write-through" then 0 else 1⟩,
                  c1, c2, rfl, hce, hc1, hc2, ?_, hfv, by simp, by simp,
                  fun _ => hfv, by simp [hop], by simp, fun _ => ⟨rfl, rfl⟩,
                  fun _ => rfl⟩
          rw [hce2, dict_set_append_left hkeys, dict_set_cons_self]
      · rename_i hop
        simp only [Except.ok.injEq, Prod.mk.injEq] at h
        obtain ⟨hresp, hs⟩ := h
        subst hresp
        subst hs
        refine ⟨rfl, rfl, rfl, rfl, rfl, Or.inl ⟨rfl, rfl, rfl⟩, by simp,
                by simp [hop], by simp, hit_line, bf, bf, c1, c2, rfl, hce, hc1, hc2,
                hce2, hfv, by simp, by simp, fun _ => hfv, fun _ => rfl,
                by simp, by simp [hop], fun _ => rfl⟩
  · rename_i hfb
    split at h
    · rename_i empty_line hfe
      split at h
      · simp at h
      · rename_i s1 hf
        split at h
        · simp at h
        · rename_i cache'' hmv2
          simp only [Except.ok.injEq, Prod.mk.injEq] at h
          obtain ⟨hresp, hs⟩ := h
          subst hresp
          subst hs
          obtain ⟨be, hmem, hbe0⟩ := find_empty_some hfe
          obtain ⟨c1, c2, hce, hc1, hc2⟩ := mem_nodup_decomp hnd hmem
          obtain ⟨bb, hbg, hs1⟩ := FAState.fa_fetch_from_memory_eq hf
          dsimp only [] at hbg hs1
          rw [hce, dict_get_append_left hc1, dict_get_cons_self] at hbg
          injection hbg with hbg
          subst hbg
          rw [hce, dict_set_append_left hc1, dict_set_cons_self] at hs1
          rw [hs1] at hmv2
          dsimp only [] at hmv2
          rw [move_to_end_of_decomp hc1] at hmv2
          simp only [Except.ok.injEq] at hmv2
          subst hmv2
          subst hs1
          refine ⟨rfl, rfl, rfl, rfl, rfl, Or.inr ⟨rfl, rfl, rfl⟩, by simp,
                  by simp, by simp, empty_line, be,
                  ⟨1, some (address >>> s.offset_bits), some (data.getD (address : Int)), if operation = "write" then (if s.write_policy = "write-through" then 0 else 1) else 0⟩,
                  c1, c2, rfl, hce, hc1, hc2, rfl, rfl, by simp, by simp, by simp,
                  by simp, fun _ => ⟨rfl, rfl⟩, by simp, by simp⟩
    · rename_i hfe
      split at h
      · simp at h
      · rename_i target hev
        split at h
        · simp at h
        · rename_i evicted hdg
          rcases hcc : s.cache with _ | ⟨⟨p1, p2⟩, rest⟩
          · rw [hcc] at hev
            simp [evict_lru] at hev
          · rw [hcc] at hev
            simp only [evict_lru, List.head?_cons, Option.map_some'] at hev
            injection hev with hev
            subst hev
            rw [hcc, dict_get_cons_self] at hdg
            injection hdg with hdg
            subst hdg
            have hrest : ∀ p ∈ rest, p.1 ≠ p1 := by
              rw [hcc] at hnd
              simp only [List.map_cons, List.nodup_cons] at hnd
              intro q hq hql
              refine hnd.1 ?_
              rw [← hql]
              exact List.mem_map_of_mem Prod.fst hq
            by_cases hwb : s.write_policy = "write-back" ∧ p2.dirty = 1
            · rw [if_pos hwb] at h
              dsimp only [] at h
              split at h
              · simp at h
              · rename_i s1 hf
                split at h
                · simp at h
                · rename_i cache'' hmv2
                  simp only [Except.ok.injEq, Prod.mk.injEq] at h
                  obtain ⟨hresp, hs⟩ := h
                  subst hresp
                  subst hs
                  obtain ⟨bb, hbg, hs1⟩ := FAState.fa_fetch_from_memory_eq hf
                  dsimp only [] at hbg hs1
                  rw [hcc, dict_get_cons_self] at hbg
                  injection hbg with hbg
                  subst hbg
                  rw [hcc, dict_set_cons_self] at hs1
                  rw [hs1] at hmv2
                  dsimp only [] at hmv2
                  rw [move_to_end_cons_self] at hmv2
                  simp only [Except.ok.injEq] at hmv2
                  subst hmv2
                  subst hs1
                  refine ⟨rfl, rfl, rfl, rfl, rfl, Or.inr ⟨rfl, rfl, rfl⟩, by simp,
                          by simp, fun _ => hcc ▸ hfe, p1, p2,
                          ⟨1, some (address >>> s.offset_bits), some (data.getD (address : Int)), if operation = "write" then (if s.write_policy = "write-through" then 0 else 1) else 0⟩,
                          [], rest, rfl, rfl, by simp, hrest, rfl, rfl,
                          fun _ => rfl, by simp [hwb.1, hwb.2], by simp,
                          by simp, fun _ => ⟨rfl, rfl⟩, by simp, by simp⟩
            · rw [if_neg hwb] at h
              dsimp only [] at h
              split at h
              · simp at h
              · rename_i s1 hf
                split at h
                · simp at h
                · rename_i cache'' hmv2
                  simp only [Except.ok.injEq, Prod.mk.injEq] at h
                  obtain ⟨hresp, hs⟩ := h
                  subst hresp
                  subst hs
                  obtain ⟨bb, hbg, hs1⟩ := FAState.fa_fetch_from_memory_eq hf
                  dsimp only [] at hbg hs1
                  rw [hcc, dict_get_cons_self] at hbg
                  injection hbg with hbg
                  subst hbg
                  rw [hcc, dict_set_cons_self] at hs1
                  rw [hs1] at hmv2
                  dsimp only [] at hmv2
                  rw [move_to_end_cons_self] at hmv2
                  simp only [Except.ok.injEq] at hmv2
                  subst hmv2
                  subst hs1
                  refine ⟨rfl, rfl, rfl, rfl, rfl, Or.inr ⟨rfl, rfl, rfl⟩, by simp,
                          by simp, fun _ => hcc ▸ hfe, p1, p2,
                          ⟨1, some (address >>> s.offset_bits), some (data.getD (address : Int)), if operation = "write" then (if s.write_policy = "write-through" then 0 else 1) else 0⟩,
                          [], rest, rfl, rfl, by simp, hrest, rfl, rfl,
                          fun _ => rfl, by simp [hwb], by simp,
                          by simp, fun _ => ⟨rfl, rfl⟩, by simp, by simp⟩

theorem dict_get_isSome_of_mem {c : List (Nat × CacheBlock)} {k : Nat}
    (h : k ∈ c.map Prod.fst) : ∃ b, dict_get c k = some b := by
  induction c with
  | nil => simp at h
  | cons p rest ih =>
    by_cases hk : p.1 = k
    · exact ⟨p.2, by unfold dict_get; rw [if_pos hk]⟩
    · rcases (by simpa using h : k = p.1 ∨ ∃ x, (k, x) ∈ rest) with h' | ⟨x, h'⟩
      · exact absurd h'.symm hk
      · obtain ⟨b, hb⟩ := ih (List.mem_map_of_mem Prod.fst h')
        exact ⟨b, by unfold dict_get; rw [if_neg hk]; exact hb⟩

theorem move_to_end_isOk_of_mem {c : List (Nat × CacheBlock)} {k : Nat}
    (h : k ∈ c.map Prod.fst) : ∃ c', move_to_end c k = .ok c' := by
  induction c with
  | nil => simp at h
  | cons p rest ih =>
    by_cases hk : p.1 = k
    · exact ⟨rest ++ [p], by unfold move_to_end; rw [if_pos hk]⟩
    · rcases (by simpa using h : k = p.1 ∨ ∃ x, (k, x) ∈ rest) with h' | ⟨x, h'⟩
      · exact absurd h'.symm hk
      · obtain ⟨c'', hc⟩ := ih (List.mem_map_of_mem Prod.fst h')
        exact ⟨p :: c'', by unfold move_to_end; rw [if_neg hk, hc]⟩

theorem dict_set_keys_of_mem {c : List (Nat × CacheBlock)} {k : Nat} {b : CacheBlock}
    (h : k ∈ c.map Prod.fst) : (dict_set c k b).map Prod.fst = c.map Prod.fst := by
  induction c with
  | nil => simp at h
  | cons p rest ih =>
    by_cases hk : p.1 = k
    · unfold dict_set
      rw [if_pos hk]
      simp [hk]
    · rcases (by simpa using h : k = p.1 ∨ ∃ x, (k, x) ∈ rest) with h' | ⟨x, h'⟩
      · exact absurd h'.symm hk
      · unfold dict_set
        rw [if_neg hk]
        simp [ih (List.mem_map_of_mem Prod.fst h')]

theorem FAState.fa_handle_write_hit_no_error {s : FAState} {line_num address : Nat}
    {data : Option Int} {e : PyErr} (hmem : line_num ∈ s.cache.map Prod.fst) :
    ¬ s.handle_write_hit line_num address data = .error e := by
  intro h
  obtain ⟨b, hb⟩ := dict_get_isSome_of_mem hmem
  unfold FAState.handle_write_hit at h
  rw [hb] at h
  dsimp only [] at h
  split at h <;> simp at h

theorem FAState.fa_fetch_from_memory_no_error {s : FAState} {line_num tag address : Nat}
    {operation : String} {data : Option Int} {e : PyErr}
    (hmem : line_num ∈ s.cache.map Prod.fst) :
    ¬ s.fetch_from_memory line_num tag address operation data = .error e := by
  intro h
  obtain ⟨b, hb⟩ := dict_get_isSome_of_mem hmem
  unfold FAState.fetch_from_memory at h
  rw [hb] at h
  dsimp only [] at h
  split at h
  · split at h <;> simp at h
  · simp at h

theorem evict_lru_mem {c : List (Nat × CacheBlock)} {k : Nat} (h : evict_lru c = some k) :
    k ∈ c.map Prod.fst := by
  cases c with
  | nil => simp [evict_lru] at h
  | cons p rest =>
    simp only [evict_lru, List.head?_cons, Option.map_some'] at h
    injection h with h
    simp [← h]

theorem FAState.access_ok_of_nonempty {s : FAState} (address : Nat) (operation : String)
    (data : Option Int) (hne : s.cache ≠ []) :
    ∃ p, s.access address operation data = .ok p := by
  rw [← except_isOk_iff]
  unfold FAState.access
  dsimp only [FAState.decompose_address]
  split
  · rename_i hit_line hfb
    obtain ⟨bf, hmem, _, _⟩ := find_block_some hfb
    have hkm : hit_line ∈ s.cache.map Prod.fst := List.mem_map_of_mem Prod.fst hmem
    obtain ⟨cache', hmv⟩ := move_to_end_isOk_of_mem hkm
    rw [hmv]
    dsimp only []
    split
    · split
      · rename_i e heq
        refine absurd heq (FAState.fa_handle_write_hit_no_error ?_)
        obtain ⟨bm, c1, c2, hce, hc1, hce2⟩ := move_to_end_decomp hmv
        rw [hce2]
        simp
      · rfl
    · rfl
  · rename_i hfb
    split
    · rename_i empty_line hfe
      obtain ⟨be, hmem, _⟩ := find_empty_some hfe
      have hkm : empty_line ∈ s.cache.map Prod.fst := List.mem_map_of_mem Prod.fst hmem
      split
      · rename_i e heq
        exact absurd heq (FAState.fa_fetch_from_memory_no_error hkm)
      · rename_i s1 hf
        obtain ⟨bb, hbg, hs1⟩ := FAState.fa_fetch_from_memory_eq hf
        split
        · rename_i e heq
          have hmem1 : empty_line ∈ s1.cache.map Prod.fst := by
            rw [hs1]
            dsimp only []
            rw [dict_set_keys_of_mem hkm]
            exact hkm
          obtain ⟨c', hc'⟩ := move_to_end_isOk_of_mem hmem1
          rw [hc'] at heq
          simp at heq
        · rfl
    · rename_i hfe
      split
      · rename_i heq
        rcases hcc : s.cache with _ | ⟨p, rest⟩
        · exact absurd hcc hne
        · rw [hcc] at heq
          simp [evict_lru] at heq
      · rename_i target htv
        have hkm : target ∈ s.cache.map Prod.fst := evict_lru_mem htv
        split
        · rename_i heq
          obtain ⟨b, hb⟩ := dict_get_isSome_of_mem hkm
          rw [hb] at heq
          simp at heq
        · rename_i evicted hdg
          by_cases hwb : s.write_policy = "write-back" ∧ evicted.dirty = 1
          · rw [if_pos hwb]
            dsimp only []
            split
            · rename_i e heq
              exact absurd heq (FAState.fa_fetch_from_memory_no_error hkm)
            · rename_i s1 hf
              obtain ⟨bb, hbg, hs1⟩ := FAState.fa_fetch_from_memory_eq hf
              split
              · rename_i e heq
                have hmem1 : target ∈ s1.cache.map Prod.fst := by
                  rw [hs1]
                  dsimp only []
                  rw [dict_set_keys_of_mem hkm]
                  exact hkm
                obtain ⟨c', hc'⟩ := move_to_end_isOk_of_mem hmem1
                rw [hc'] at heq
                simp at heq
              · rfl
          · rw [if_neg hwb]
            dsimp only []
            split
            · rename_i e heq
              exact absurd heq (FAState.fa_fetch_from_memory_no_error hkm)
            · rename_i s1 hf
              obtain ⟨bb, hbg, hs1⟩ := FAState.fa_fetch_from_memory_eq hf
              split
              · rename_i e heq
                have hmem1 : target ∈ s1.cache.map Prod.fst := by
                  rw [hs1]
                  dsimp only []
                  rw [dict_set_keys_of_mem hkm]
                  exact hkm
                obtain ⟨c', hc'⟩ := move_to_end_isOk_of_mem hmem1
                rw [hc'] at heq
                simp at heq
              · rfl

theorem FAState.fa_run_isOk {tr : List MemAccess} {s : FAState}
    (hnd : (s.cache.map Prod.fst).Nodup) (hne : s.cache ≠ []) :
    ∃ s', s.run tr = .ok s' := by
  induction tr generalizing s with
  | nil => exact ⟨s, rfl⟩
  | cons a rest ih =>
    obtain ⟨⟨r, s1⟩, hok⟩ := FAState.access_ok_of_nonempty a.address a.operation a.data hne
    unfold FAState.run
    rw [hok]
    obtain ⟨_, _, _, _, _, _, _, _, _, l, bOld, bNew, c1, c2, _, hce, hc1, hc2, hs'c, _⟩ :=
      FAState.fa_access_spec hnd hok
    exact ih (by rw [hs'c]; exact nodup_keys_move (hce ▸ hnd)) (by rw [hs'c]; simp)

theorem FAState.fa_run_hits_misses {tr : List MemAccess} {s s' : FAState}
    (h : s.run tr = .ok s') (hnd : (s.cache.map Prod.fst).Nodup)
    (hinv : s.hits + s.misses = s.total_accesses) :
    s'.hits + s'.misses = s'.total_accesses := by
  induction tr generalizing s with
  | nil =>
    unfold FAState.run at h
    simp only [Except.ok.injEq] at h
    subst h
    exact hinv
  | cons a rest ih =>
    unfold FAState.run at h
    split at h
    · simp at h
    · rename_i r s1 hp
      obtain ⟨_, _, _, ht, _, hcnt, _, _, _, l, bOld, bNew, c1, c2, _, hce, _, _, hs'c, _⟩ :=
        FAState.fa_access_spec hnd hp
      refine ih h (by rw [hs'c]; exact nodup_keys_move (hce ▸ hnd)) ?_
      rcases hcnt with ⟨_, h1, h2⟩ | ⟨_, h1, h2⟩ <;> omega

theorem FAState.fa_run_wt_clean {tr : List MemAccess} {s s' : FAState}
    (h : s.run tr = .ok s') (hnd : (s.cache.map Prod.fst).Nodup)
    (hwp : s.write_policy = "write-through")
    (hclean : ∀ p ∈ s.cache, p.2.dirty = 0) :
    (∀ p ∈ s'.cache, p.2.dirty = 0) ∧ s'.write_policy = "write-through" := by
  induction tr generalizing s with
  | nil =>
    unfold FAState.run at h
    simp only [Except.ok.injEq] at h
    subst h
    exact ⟨hclean, hwp⟩
  | cons a rest ih =>
    unfold FAState.run at h
    split at h
    · simp at h
    · rename_i r s1 hp
      obtain ⟨hwp1, _, _, _, _, _, _, _, _, l, bOld, bNew, c1, c2, _, hce, _, _, hs'c, _, _,
        _, _, hrb, hmissb, hwb, _⟩ := FAState.fa_access_spec hnd hp
      refine ih h (by rw [hs'c]; exact nodup_keys_move (hce ▸ hnd))
        (by rw [hwp1]; exact hwp) ?_
      intro p hp'
      rw [hs'c] at hp'
      rcases List.mem_append.mp hp' with hp' | hp'
      · refine hclean p ?_
        rw [hce]
        rcases List.mem_append.mp hp' with hp' | hp'
        · exact List.mem_append.mpr (Or.inl hp')
        · exact List.mem_append.mpr (Or.inr (List.mem_cons.mpr (Or.inr hp')))
      · rcases List.mem_cons.mp hp' with hp' | hp'
        · subst hp'
          dsimp only []
          by_cases hhit : r.hit = true
          · by_cases hop : a.operation = "write"
            · rcases hwb ⟨hhit, hop⟩ with ⟨_, hd⟩
              rw [hd, if_pos hwp]
            · rw [hrb ⟨hhit, hop⟩]
              refine hclean (l, bOld) ?_
              rw [hce]
              exact List.mem_append.mpr (Or.inr (List.mem_cons.mpr (Or.inl rfl)))
          · rcases hmissb (by simpa using hhit) with ⟨_, hd⟩
            rw [hd, hwp]
            simp
        · simp at hp'

theorem mkFullyAssociativeCache_pos_ok (cache_size block_size : Int) (write_policy : String)
    (hbs : 0 < block_size) :
    mkFullyAssociativeCache cache_size block_size write_policy = .ok
      { cache_size, block_size, num_blocks := Int.fdiv cache_size block_size, write_policy,
        offset_bits := Nat.log2 block_size.toNat,
        tag_bits := 32 - (Nat.log2 block_size.toNat : Int),
        cache := (List.range (Int.fdiv cache_size block_size).toNat).map
          (fun i => (i, CacheBlock.init)),
        total_accesses := 0, hits := 0, misses := 0, memory_reads := 0,
        memory_writes := 0 } := by
  unfold mkFullyAssociativeCache intLog2
  rw [if_neg (by omega)]
  dsimp only []
  rw [if_neg (by omega)]

theorem init_cache_keys (n : Nat) :
    (((List.range n).map (fun i => (i, CacheBlock.init))).map Prod.fst) = List.range n := by
  rw [List.map_map]
  exact List.map_id _

theorem faFresh_isOk (cache_size block_size : Int) (write_policy : String)
    (tr : List MemAccess) (hbs : 0 < block_size)
    (hnb : 0 < Int.fdiv cache_size block_size) :
    ∃ s', faFresh cache_size block_size write_policy tr = .ok s' := by
  unfold faFresh
  rw [mkFullyAssociativeCache_pos_ok cache_size block_size write_policy hbs]
  refine FAState.fa_run_isOk ?_ ?_
  · show (((List.range (Int.fdiv cache_size block_size).toNat).map
      (fun i => (i, CacheBlock.init))).map Prod.fst).Nodup
    rw [init_cache_keys]
    exact List.nodup_range _
  · refine List.ne_nil_of_length_pos ?_
    show 0 < ((List.range (Int.fdiv cache_size block_size).toNat).map
      (fun i => (i, CacheBlock.init))).length
    simp
    omega

theorem mkDirectMappedCache_ok_inv {cache_size block_size : Int} {write_policy : String}
    {s : DMState} (h : mkDirectMappedCache cache_size block_size write_policy = .ok s) :
    s.write_policy = write_policy ∧ s.total_accesses = 0 ∧ s.hits = 0 ∧ s.misses = 0 ∧
    s.memory_reads = 0 ∧ s.memory_writes = 0 ∧
    s.cache = List.replicate (Int.fdiv cache_size block_size).toNat CacheBlock.init := by
  unfold mkDirectMappedCache at h
  split at h
  · simp at h
  · simp only [] at h
    split at h
    · simp at h
    · split at h
      · simp at h
      · simp only [Except.ok.injEq] at h
        subst h
        exact ⟨rfl, rfl, rfl, rfl, rfl, rfl, rfl⟩

theorem mkFullyAssociativeCache_ok_inv {cache_size block_size : Int} {write_policy : String}
    {s : FAState} (h : mkFullyAssociativeCache cache_size block_size write_policy = .ok s) :
    s.write_policy = write_policy ∧ s.total_accesses = 0 ∧ s.hits = 0 ∧ s.misses = 0 ∧
    s.memory_reads = 0 ∧ s.memory_writes = 0 ∧
    s.cache = (List.range (Int.fdiv cache_size block_size).toNat).map
      (fun i => (i, CacheBlock.init)) := by
  unfold mkFullyAssociativeCache at h
  split at h
  · simp at h
  · simp only [] at h
    split at h
    · simp at h
    · simp only [Except.ok.injEq] at h
      subst h
      exact ⟨rfl, rfl, rfl, rfl, rfl, rfl, rfl⟩

/-- **C4.** For every access (read or write, either cache variant):
`total_accesses` is incremented exactly once (the response's
`access_number` already carries the incremented value, showing the
increment happens before hit/miss classification), exactly one of
`hits`/`misses` is incremented, mutually exclusively according to the
hit flag — and therefore `hits + misses = totalAccesses` holds after
every access sequence from a freshly created cache. -/
theorem hits_plus_misses_eq_total (cache_size block_size : Int) (write_policy : String) :
    (∀ (s : DMState) (address : Nat) (operation : String) (data : Option Int)
        (r : AccessResp) (s' : DMState), s.access address operation data = .ok (r, s') →
      s'.total_accesses = s.total_accesses + 1 ∧
      r.access_number = s.total_accesses + 1 ∧
      ((r.hit = true ∧ s'.hits = s.hits + 1 ∧ s'.misses = s.misses) ∨
       (r.hit = false ∧ s'.misses = s.misses + 1 ∧ s'.hits = s.hits))) ∧
    (∀ (tr : List MemAccess) (s' : DMState),
      dmFresh cache_size block_size write_policy tr = .ok s' →
      s'.hits + s'.misses = s'.total_accesses) ∧
    (∀ (s : FAState) (address : Nat) (operation : String) (data : Option Int)
        (r : AccessResp) (s' : FAState), (s.cache.map Prod.fst).Nodup →
      s.access address operation data = .ok (r, s') →
      s'.total_accesses = s.total_accesses + 1 ∧
      r.access_number = s.total_accesses + 1 ∧
      ((r.hit = true ∧ s'.hits = s.hits + 1 ∧ s'.misses = s.misses) ∨
       (r.hit = false ∧ s'.misses = s.misses + 1 ∧ s'.hits = s.hits))) ∧
    (∀ (tr : List MemAccess) (s' : FAState),
      faFresh cache_size block_size write_policy tr = .ok s' →
      s'.hits + s'.misses = s'.total_accesses) := by
  refine ⟨?_, ?_, ?_, ?_⟩
  · intro s address operation data r s' h
    obtain ⟨_, _, _, _, _, ht, ha, _, hcnt, _⟩ := DMState.dm_access_spec h
    exact ⟨ht, ha, hcnt⟩
  · intro tr s' h
    unfold dmFresh at h
    split at h
    · simp at h
    · rename_i s0 hmk
      obtain ⟨_, h0, h1, h2, _⟩ := mkDirectMappedCache_ok_inv hmk
      exact DMState.dm_run_hits_misses h (by omega)
  · intro s address operation data r s' hnd h
    obtain ⟨_, _, _, ht, ha, hcnt, _⟩ := FAState.fa_access_spec hnd h
    exact ⟨ht, ha, hcnt⟩
  · intro tr s' h
    unfold faFresh at h
    split at h
    · simp at h
    · rename_i s0 hmk
      obtain ⟨_, h0, h1, h2, _, _, hc⟩ := mkFullyAssociativeCache_ok_inv hmk
      refine FAState.fa_run_hits_misses h ?_ (by omega)
      rw [hc, init_cache_keys]
      exact List.nodup_range _

/-- **C4 witness.** The combined counter facts instantiated on a concrete
access and a concrete fresh run (direct-mapped, 16-byte cache, 4-byte
blocks, two reads of address 0). -/
theorem hits_plus_misses_eq_total_witness :
    (∃ s' : DMState,
      dmFresh 16 4 "write-through" [⟨0, "read", none⟩, ⟨0, "read", none⟩] = .ok s' ∧
      s'.hits + s'.misses = s'.total_accesses) ∧
    (∃ s' : FAState, faFresh 16 4 "write-through" [⟨0, "read", none⟩] = .ok s' ∧
      s'.hits + s'.misses = s'.total_accesses) := by
  have h1 : dmFresh 16 4 "write-through" [⟨0, "read", none⟩, ⟨0, "read", none⟩] =
      .ok ⟨16, 4, 4, "write-through", 2, 2, 28,
           [⟨1, some 0, some 0, 0⟩, CacheBlock.init, CacheBlock.init, CacheBlock.init],
           2, 1, 1, 1, 0⟩ := by
    simp only [dmFresh, mkDM_16_4]
    rfl
  have h2 : faFresh 16 4 "write-through" [⟨0, "read", none⟩] =
      .ok ⟨16, 4, 4, "write-through", 2, 30,
           [(1, CacheBlock.init), (2, CacheBlock.init), (3, CacheBlock.init),
            (0, ⟨1, some 0, some 0, 0⟩)], 1, 0, 1, 1, 0⟩ := by
    simp only [faFresh, mkFA_16_4]
    rfl
  exact ⟨⟨_, h1, (hits_plus_misses_eq_total 16 4 "write-through").2.1 _ _ h1⟩,
         ⟨_, h2, (hits_plus_misses_eq_total 16 4 "write-through").2.2.2 _ _ h2⟩⟩

/-- **C6.** Under the write-through policy no line is ever dirty: after
every access sequence from a freshly created cache (either variant),
every cache line has `dirty = 0` — write hits and write-miss fills clear
the dirty bit, and reads never set it. -/
theorem write_through_never_dirty (cache_size block_size : Int) (tr : List MemAccess) :
    (∀ s' : DMState, dmFresh cache_size block_size "write-through" tr = .ok s' →
      ∀ b ∈ s'.cache, b.dirty = 0) ∧
    (∀ s' : FAState, faFresh cache_size block_size "write-through" tr = .ok s' →
      ∀ p ∈ s'.cache, p.2.dirty = 0) := by
  constructor
  · intro s' h
    unfold dmFresh at h
    split at h
    · simp at h
    · rename_i s0 hmk
      obtain ⟨hw, _, _, _, _, _, hc⟩ := mkDirectMappedCache_ok_inv hmk
      refine (DMState.dm_run_wt_clean h hw ?_).1
      rw [hc]
      intro b hb
      rw [List.eq_of_mem_replicate hb]
      rfl
  · intro s' h
    unfold faFresh at h
    split at h
    · simp at h
    · rename_i s0 hmk
      obtain ⟨hw, _, _, _, _, _, hc⟩ := mkFullyAssociativeCache_ok_inv hmk
      refine (FAState.fa_run_wt_clean h ?_ hw ?_).1
      · rw [hc, init_cache_keys]
        exact List.nodup_range _
      · rw [hc]
        intro p hp
        obtain ⟨i, _, hip⟩ := List.mem_map.mp hp
        rw [← hip]
        rfl

/-- **C6 witness.** The write-through cleanliness invariant instantiated on
a concrete run containing a write hit, a write-miss fill and a read. -/
theorem write_through_never_dirty_witness :
    (∃ s' : DMState,
      dmFresh 16 4 "write-through"
        [⟨0, "write", none⟩, ⟨0, "write", none⟩, ⟨4, "read", none⟩] = .ok s' ∧
      ∀ b ∈ s'.cache, b.dirty = 0) ∧
    (∃ s' : FAState,
      faFresh 16 4 "write-through" [⟨0, "write", none⟩] = .ok s' ∧
      ∀ p ∈ s'.cache, p.2.dirty = 0) := by
  have h1 : dmFresh 16 4 "write-through"
      [⟨0, "write", none⟩, ⟨0, "write", none⟩, ⟨4, "read", none⟩] =
      .ok ⟨16, 4, 4, "write-through", 2, 2, 28,
           [⟨1, some 0, some 0, 0⟩, ⟨1, some 0, some 4, 0⟩, CacheBlock.init,
            CacheBlock.init], 3, 1, 2, 2, 2⟩ := by
    simp only [dmFresh, mkDM_16_4]
    rfl
  have h2 : faFresh 16 4 "write-through" [⟨0, "write", none⟩] =
      .ok ⟨16, 4, 4, "write-through", 2, 30,
           [(1, CacheBlock.init), (2, CacheBlock.init), (3, CacheBlock.init),
            (0, ⟨1, some 0, some 0, 0⟩)], 1, 0, 1, 1, 1⟩ := by
    simp only [faFresh, mkFA_16_4]
    rfl
  refine ⟨⟨_, h1, (write_through_never_dirty 16 4 _).1 _ h1⟩,
          ⟨_, h2, (write_through_never_dirty 16 4 _).2 _ h2⟩⟩

/-- **C9.** For every well-formed cache instance (configuration satisfying
the spec §3 invariants), every non-negative integer address of unbounded
magnitude, every operation string and every optional data value, `access`
returns normally: whole access sequences run without any error (no
out-of-bounds indexing, no missing dict key, no empty-dict iteration),
for both cache variants. -/
theorem access_never_fails (cache_size block_size : Int) (write_policy : String)
    (tr : List MemAccess) (hcfg : ConfigOK cache_size block_size) :
    (∃ s', dmFresh cache_size block_size write_policy tr = .ok s') ∧
    (∃ s', faFresh cache_size block_size write_policy tr = .ok s') := by
  obtain ⟨hcs, hbs, ⟨k1, hk1⟩, ⟨k2, hk2⟩, hdvd, hle⟩ := hcfg
  have hnb : 0 < Int.fdiv cache_size block_size := by
    rw [hk2]
    positivity
  exact ⟨dmFresh_isOk _ _ _ _ hbs hnb, faFresh_isOk _ _ _ _ hbs hnb⟩

/-- **C9 witness.** Totality instantiated at the well-formed 16-byte,
4-byte-block configuration on a run mixing a huge address, an unusual
operation string and an explicit data payload. -/
theorem access_never_fails_witness :
    ConfigOK 16 4 ∧
    ((∃ s', dmFresh 16 4 "write-back"
        [⟨2 ^ 70 + 3, "read", none⟩, ⟨5, "frobnicate", some (-7)⟩] = .ok s') ∧
     (∃ s', faFresh 16 4 "write-back"
        [⟨2 ^ 70 + 3, "read", none⟩, ⟨5, "frobnicate", some (-7)⟩] = .ok s')) :=
  have hcfg : ConfigOK 16 4 :=
    ⟨by norm_num, by norm_num, ⟨2, by norm_num⟩, ⟨2, by decide⟩, ⟨4, by norm_num⟩,
     by norm_num⟩
  ⟨hcfg, access_never_fails 16 4 "write-back" _ hcfg⟩

/-- **C5.** On a replacement miss (a miss whose target line is valid, the
accesses the code flags with `eviction`), `memory_writes` is incremented
for the eviction if and only if the write policy is `write-back` and the
evicted line's dirty bit is set; under `write-through` the eviction never
increments `memory_writes` (the only other increment being the
write-through store of the newly written word), for both cache variants. -/
theorem eviction_writeback_iff :
    (∀ (s : DMState) (address : Nat) (operation : String) (data : Option Int)
        (r : AccessResp) (s' : DMState),
      s.access address operation data = .ok (r, s') → r.eviction = true →
      ∃ b, s.cache.get? (s.decompose_address address).2.1 = some b ∧ b.valid = 1 ∧
        (r.dirty_writeback = true ↔ (s.write_policy = "write-back" ∧ b.dirty = 1)) ∧
        (s.write_policy = "write-through" → r.dirty_writeback = false) ∧
        s'.memory_writes = s.memory_writes +
          (if s.write_policy = "write-back" ∧ b.dirty = 1 then 1 else 0) +
          (if operation = "write" ∧ s.write_policy = "write-through" then 1 else 0)) ∧
    (∀ (s : FAState) (address : Nat) (operation : String) (data : Option Int)
        (r : AccessResp) (s' : FAState), (s.cache.map Prod.fst).Nodup →
      s.access address operation data = .ok (r, s') → r.eviction = true →
      ∃ l b rest, s.cache = (l, b) :: rest ∧ r.affected_line = some l ∧ b.valid ≠ 0 ∧
        (r.dirty_writeback = true ↔ (s.write_policy = "write-back" ∧ b.dirty = 1)) ∧
        (s.write_policy = "write-through" → r.dirty_writeback = false) ∧
        s'.memory_writes = s.memory_writes +
          (if s.write_policy = "write-back" ∧ b.dirty = 1 then 1 else 0) +
          (if operation = "write" ∧ s.write_policy = "write-through" then 1 else 0)) := by
  constructor
  · intro s address operation data r s' h hev
    obtain ⟨_, _, _, _, _, _, _, _, _, _, hmw, b, b', hget, _, _, hevi, hdwb, _⟩ :=
      DMState.dm_access_spec h
    have hbv : b.valid = 1 := (hevi.mp hev).2
    have hiff : r.dirty_writeback = true ↔ (s.write_policy = "write-back" ∧ b.dirty = 1) := by
      rw [hdwb]
      simp [hev]
    refine ⟨b, hget, hbv, hiff, ?_, ?_⟩
    · intro hwt
      by_contra hne
      have := hiff.mp (by simpa using hne)
      rw [hwt] at this
      simp at this
    · rw [hmw, if_congr hiff rfl rfl]
  · intro s address operation data r s' hnd h hev
    obtain ⟨_, _, _, _, _, _, _, hmw, hfe, l, bOld, bNew, c1, c2, haff, hce, _, _, _, _,
      hc1e, hdwb, _⟩ := FAState.fa_access_spec hnd h
    have hc1 : c1 = [] := hc1e hev
    subst hc1
    have hiff : r.dirty_writeback = true ↔
        (s.write_policy = "write-back" ∧ bOld.dirty = 1) := by
      rw [hdwb]
      simp [hev]
    refine ⟨l, bOld, c2, by simpa using hce, haff, ?_, hiff, ?_, ?_⟩
    · exact find_empty_none (hfe hev) (l, bOld) (by rw [hce]; simp)
    · intro hwt
      by_contra hne
      have := hiff.mp (by simpa using hne)
      rw [hwt] at this
      simp at this
    · rw [hmw, if_congr hiff rfl rfl]

/-- **C5 witness.** The eviction/write-back characterization instantiated
on concrete replacement misses: a direct-mapped write-back cache whose
dirty line 0 is evicted by a conflicting address, and a fully-associative
write-back cache whose LRU line is evicted with a clean victim. -/
theorem eviction_writeback_iff_witness :
    (∃ r : AccessResp, ∃ s' : DMState,
      (DMState.mk 16 4 4 "write-back" 2 2 28
          [⟨1, some 0, some 0, 1⟩, CacheBlock.init, CacheBlock.init, CacheBlock.init]
          1 0 1 1 0).access 16 "read" none = .ok (r, s') ∧ r.eviction = true ∧
      (∃ b, ([⟨1, some 0, some 0, 1⟩, CacheBlock.init, CacheBlock.init,
          CacheBlock.init] : List CacheBlock).get?
          ((DMState.mk 16 4 4 "write-back" 2 2 28
            [⟨1, some 0, some 0, 1⟩, CacheBlock.init, CacheBlock.init, CacheBlock.init]
            1 0 1 1 0).decompose_address 16).2.1 = some b ∧ b.valid = 1 ∧
        (r.dirty_writeback = true ↔ ("write-back" = "write-back" ∧ b.dirty = 1)) ∧
        ("write-back" = "write-through" → r.dirty_writeback = false) ∧
        s'.memory_writes = 0 +
          (if ("write-back" = "write-back" ∧ b.dirty = 1) then 1 else 0) +
          (if ("read" = "write" ∧ "write-back" = "write-through") then 1 else 0))) := by
  have h : (DMState.mk 16 4 4 "write-back" 2 2 28
      [⟨1, some 0, some 0, 1⟩, CacheBlock.init, CacheBlock.init, CacheBlock.init]
      1 0 1 1 0).access 16 "read" none =
      .ok (⟨2, 16, "read", 1, some 0, 0, false, true, true, some 0⟩,
           ⟨16, 4, 4, "write-back", 2, 2, 28,
            [⟨1, some 1, some 16, 0⟩, CacheBlock.init, CacheBlock.init, CacheBlock.init],
            2, 0, 2, 2, 1⟩) := by
    rfl
  obtain ⟨b, hget, hbv, hiff, hwt, hmw⟩ :=
    (eviction_writeback_iff).1 _ 16 "read" none _ _ h rfl
  exact ⟨_, _, h, rfl, b, hget, hbv, hiff, hwt, hmw⟩

theorem DMState.dm_fetch_op_read {s : DMState} {index tag address : Nat} {operation : String}
    {data : Option Int} (hop : operation ≠ "write") :
    s.fetch_from_memory index tag address operation data =
      s.fetch_from_memory index tag address "read" data := by
  have hr : ¬("read" = "write") := by decide
  unfold DMState.fetch_from_memory
  simp only [if_neg hop, if_neg hr]

theorem DMState.dm_access_op_ne_write {s : DMState} {address : Nat} {operation : String}
    {data : Option Int} {r : AccessResp} {s' : DMState} (hop : operation ≠ "write")
    (h : s.access address operation data = .ok (r, s')) :
    ∃ r', s.access address "read" data = .ok (r', s') := by
  have hr : ¬("read" = "write") := by decide
  unfold DMState.access at h ⊢
  dsimp only [DMState.decompose_address] at h ⊢
  simp only [if_neg hop, if_neg hr, DMState.dm_fetch_op_read hop] at h ⊢
  split at h
  · simp at h
  · rename_i b hb
    split at h
    · rename_i hhit
      rw [if_pos hhit]
      simp only [Except.ok.injEq, Prod.mk.injEq] at h
      exact ⟨_, by rw [h.2]⟩
    · rename_i hhit
      rw [if_neg hhit]
      by_cases hv : b.valid = 1
      · rw [if_pos hv] at h ⊢
        by_cases hwb : s.write_policy = "write-back" ∧ b.dirty = 1
        · rw [if_pos hwb] at h ⊢
          dsimp only [] at h ⊢
          split at h
          · simp at h
          · rename_i s1 hf
            simp only [Except.ok.injEq, Prod.mk.injEq] at h
            exact ⟨_, by rw [h.2]⟩
        · rw [if_neg hwb] at h ⊢
          dsimp only [] at h ⊢
          split at h
          · simp at h
          · rename_i s1 hf
            simp only [Except.ok.injEq, Prod.mk.injEq] at h
            exact ⟨_, by rw [h.2]⟩
      · rw [if_neg hv] at h ⊢
        dsimp only [] at h ⊢
        split at h
        · simp at h
        · rename_i s1 hf
          simp only [Except.ok.injEq, Prod.mk.injEq] at h
          exact ⟨_, by rw [h.2]⟩

theorem FAState.fa_fetch_op_read {s : FAState} {line_num tag address : Nat} {operation : String}
    {data : Option Int} (hop : operation ≠ "write") :
    s.fetch_from_memory line_num tag address operation data =
      s.fetch_from_memory line_num tag address "read" data := by
  have hr : ¬("read" = "write") := by decide
  unfold FAState.fetch_from_memory
  simp only [if_neg hop, if_neg hr]

theorem FAState.fa_access_op_ne_write {s : FAState} {address : Nat} {operation : String}
    {data : Option Int} {r : AccessResp} {s' : FAState} (hop : operation ≠ "write")
    (h : s.access address operation data = .ok (r, s')) :
    ∃ r', s.access address "read" data = .ok (r', s') := by
  have hr : ¬("read" = "write") := by decide
  unfold FAState.access at h ⊢
  dsimp only [FAState.decompose_address] at h ⊢
  simp only [if_neg hop, if_neg hr, FAState.fa_fetch_op_read hop] at h ⊢
  split at h
  · rename_i hit_line hfb
    split at h
    · simp at h
    · rename_i cache' hmv
      simp only [Except.ok.injEq, Prod.mk.injEq] at h
      exact ⟨_, by rw [h.2]⟩
  · rename_i hfb
    split at h
    · rename_i empty_line hfe
      split at h
      · simp at h
      · rename_i s1 hf
        split at h
        · simp at h
        · rename_i cache'' hmv
          simp only [Except.ok.injEq, Prod.mk.injEq] at h
          exact ⟨_, by rw [h.2]⟩
    · rename_i hfe
      split at h
      · simp at h
      · rename_i target hev
        split at h
        · simp at h
        · rename_i evicted hdg
          by_cases hwb : s.write_policy = "write-back" ∧ evicted.dirty = 1
          · rw [if_pos hwb] at h ⊢
            dsimp only [] at h ⊢
            split at h
            · simp at h
            · rename_i s1 hf
              split at h
              · simp at h
              · rename_i cache'' hmv
                simp only [Except.ok.injEq, Prod.mk.injEq] at h
                exact ⟨_, by rw [h.2]⟩
          · rw [if_neg hwb] at h ⊢
            dsimp only [] at h ⊢
            split at h
            · simp at h
            · rename_i s1 hf
              split at h
              · simp at h
              · rename_i cache'' hmv
                simp only [Except.ok.injEq, Prod.mk.injEq] at h
                exact ⟨_, by rw [h.2]⟩

theorem perm_move {alf : Type} (c1 c2 : List alf) (a : alf) :
    ((c1 ++ c2) ++ [a]).Perm (c1 ++ a :: c2) :=
  List.Perm.trans (List.perm_append_singleton _ _) List.perm_middle.symm

/-- **C10.** Any operation argument other than the exact string `"write"`
(for example `"WRITE"`, `"Write"` or `"w"`) is processed as a read and is
never validated or rejected: the access produces the same final state as a
`"read"`; on a hit no line is mutated and `memory_writes` is unchanged; on
a miss the installed line has `dirty = 0` and the only possible
`memory_writes` increment is the dirty eviction write-back, never the
write-through store.  Both cache variants. -/
theorem non_write_operation_is_read :
    (∀ (s : DMState) (address : Nat) (operation : String) (data : Option Int)
        (r : AccessResp) (s' : DMState), operation ≠ "write" →
      s.access address operation data = .ok (r, s') →
      (∃ r', s.access address "read" data = .ok (r', s')) ∧
      (r.hit = true → s'.cache = s.cache ∧ s'.memory_writes = s.memory_writes) ∧
      (r.hit = false → ∃ b', s'.cache = s.cache.set (s.decompose_address address).2.1 b' ∧
        b'.dirty = 0 ∧
        s'.memory_writes = s.memory_writes +
          (if r.dirty_writeback = true then 1 else 0))) ∧
    (∀ (s : FAState) (address : Nat) (operation : String) (data : Option Int)
        (r : AccessResp) (s' : FAState), (s.cache.map Prod.fst).Nodup →
      operation ≠ "write" →
      s.access address operation data = .ok (r, s') →
      (∃ r', s.access address "read" data = .ok (r', s')) ∧
      (r.hit = true → (∀ p, p ∈ s'.cache ↔ p ∈ s.cache) ∧
        s'.memory_writes = s.memory_writes) ∧
      (r.hit = false → ∃ l bNew, r.affected_line = some l ∧ (l, bNew) ∈ s'.cache ∧
        bNew.dirty = 0 ∧
        s'.memory_writes = s.memory_writes +
          (if r.dirty_writeback = true then 1 else 0))) := by
  constructor
  · intro s address operation data r s' hop h
    obtain ⟨_, _, _, _, _, _, _, _, _, _, hmw, b, b', hget, hset, _, hevi, hdwbi,
      hmissb, hrb, _⟩ := DMState.dm_access_spec h
    refine ⟨DMState.dm_access_op_ne_write hop h, ?_, ?_⟩
    · intro hhit
      have hev : r.eviction = false := by
        cases hcase : r.eviction
        · rfl
        · have := (hevi.mp hcase).1
          rw [hhit] at this
          simp at this
      have hdwb : r.dirty_writeback = false := by
        cases hcase : r.dirty_writeback
        · rfl
        · have := (hdwbi.mp hcase).1
          rw [hev] at this
          simp at this
      constructor
      · rw [hset, hrb ⟨hhit, hop⟩]
        exact list_set_of_get? hget
      · rw [hmw, hdwb]
        simp [hop]
    · intro hmiss
      refine ⟨b', hset, ?_, ?_⟩
      · rw [(hmissb hmiss).2.2, if_neg hop]
      · rw [hmw, if_neg (show ¬(operation = "write" ∧
          s.write_policy = "write-through") from fun hc => hop hc.1)]
        rfl
  · intro s address operation data r s' hnd hop h
    obtain ⟨_, _, _, _, _, _, _, hmw, _, l, bOld, bNew, c1, c2, haff, hce, _, _, hs'c, _,
      _, hdwbi, _, hrb, hmissb, _, hhitev⟩ := FAState.fa_access_spec hnd h
    refine ⟨FAState.fa_access_op_ne_write hop h, ?_, ?_⟩
    · intro hhit
      have hev : r.eviction = false := hhitev hhit
      have hdwb : r.dirty_writeback = false := by
        cases hcase : r.dirty_writeback
        · rfl
        · have := (hdwbi.mp hcase).1
          rw [hev] at this
          simp at this
      constructor
      · intro p
        rw [hs'c, hrb ⟨hhit, hop⟩, hce]
        exact (perm_move c1 c2 (l, bOld)).mem_iff
      · rw [hmw, hdwb]
        simp [hop]
    · intro hmiss
      refine ⟨l, bNew, haff, ?_, ?_, ?_⟩
      · rw [hs'c]
        simp
      · rw [(hmissb hmiss).2, if_neg hop]
      · rw [hmw, if_neg (show ¬(operation = "write" ∧
          s.write_policy = "write-through") from fun hc => hop hc.1)]
        rfl

/-- **C10 witness.** The non-`"write"`-operation facts instantiated on a
concrete access with operation string `"WRITE"` against a fresh
direct-mapped write-through instance: it misses, installs a clean line and
performs no memory write. -/
theorem non_write_operation_is_read_witness :
    ∃ (r : AccessResp) (s' : DMState),
      (DMState.mk 16 4 4 "write-through" 2 2 28 (List.replicate 4 CacheBlock.init)
        0 0 0 0 0).access 0 "WRITE" none = .ok (r, s') ∧
      ((∃ r', (DMState.mk 16 4 4 "write-through" 2 2 28 (List.replicate 4 CacheBlock.init)
          0 0 0 0 0).access 0 "read" none = .ok (r', s')) ∧
       (r.hit = true → s'.cache = List.replicate 4 CacheBlock.init ∧
         s'.memory_writes = 0) ∧
       (r.hit = false → ∃ b', s'.cache = (List.replicate 4 CacheBlock.init).set
           ((DMState.mk 16 4 4 "write-through" 2 2 28 (List.replicate 4 CacheBlock.init)
             0 0 0 0 0).decompose_address 0).2.1 b' ∧ b'.dirty = 0 ∧
         s'.memory_writes = 0 + (if r.dirty_writeback = true then 1 else 0))) := by
  have h : (DMState.mk 16 4 4 "write-through" 2 2 28 (List.replicate 4 CacheBlock.init)
      0 0 0 0 0).access 0 "WRITE" none =
      .ok (⟨1, 0, "WRITE", 0, some 0, 0, false, false, false, some 0⟩,
           ⟨16, 4, 4, "write-through", 2, 2, 28,
            [⟨1, some 0, some 0, 0⟩, CacheBlock.init, CacheBlock.init, CacheBlock.init],
            1, 0, 1, 1, 0⟩) := by
    rfl
  exact ⟨_, _, h,
    (non_write_operation_is_read).1 _ 0 "WRITE" none _ _ (by decide) h⟩

/-! ### LRU recency invariant (claim C3) -/

theorem tlookup_tset_self (t : List (Nat × Nat)) (k v : Nat) :
    tlookup (tset t k v) k = some v := by
  induction t with
  | nil => simp [tset, tlookup]
  | cons p rest ih =>
    by_cases hk : p.1 = k
    · simp [tset, hk, tlookup]
    · simp [tset, hk, tlookup, ih]

theorem tlookup_tset_ne (t : List (Nat × Nat)) {k k' : Nat} (v : Nat) (h : k' ≠ k) :
    tlookup (tset t k v) k' = tlookup t k' := by
  induction t with
  | nil => simp [tset, tlookup, Ne.symm h]
  | cons p rest ih =>
    by_cases hk : p.1 = k
    · simp [tset, hk, tlookup, Ne.symm h]
    · simp [tset, hk, tlookup, ih]

theorem pairwise_of_total {alf : Type} {R : alf → alf → Prop} (h : ∀ a b, R a b) :
    ∀ l : List alf, l.Pairwise R
  | [] => List.Pairwise.nil
  | a :: l => List.Pairwise.cons (fun b _ => h a b) (pairwise_of_total h l)

theorem FAInv_init {cache_size block_size : Int} {write_policy : String} {s : FAState}
    (h : mkFullyAssociativeCache cache_size block_size write_policy = .ok s) :
    FAInv s [] := by
  obtain ⟨_, ht, _, _, _, _, hc⟩ := mkFullyAssociativeCache_ok_inv h
  constructor
  · rw [hc]
    intro p hp
    obtain ⟨i, _, hip⟩ := List.mem_map.mp hp
    rw [← hip]
    left
    rfl
  · rw [hc]
    intro p hp
    obtain ⟨i, _, hip⟩ := List.mem_map.mp hp
    rw [← hip]
    simp [tlookup, CacheBlock.init]
  · exact pairwise_of_total (fun p q x hx => by simp [tlookup] at hx) s.cache
  · intro k x hx
    simp [tlookup] at hx
  · rw [hc, init_cache_keys]
    exact List.nodup_range _

theorem FAInv_step {s : FAState} {t : List (Nat × Nat)} {a : MemAccess}
    {resp : AccessResp} {s' : FAState} (hinv : FAInv s t)
    (h : s.access a.address a.operation a.data = .ok (resp, s')) :
    FAInv s' (match resp.affected_line with
              | some l => tset t l s'.total_accesses
              | none => t) := by
  obtain ⟨_, _, _, htot, _, _, _, _, _, l, bOld, bNew, c1, c2, haff, hce, hc1, hc2, hs'c,
    hbv, _⟩ := FAState.fa_access_spec hinv.keys_nodup h
  rw [haff]
  show FAInv s' (tset t l s'.total_accesses)
  rw [htot]
  have hmem_of : ∀ p, p ∈ c1 ++ c2 → p ∈ s.cache := by
    intro p hp
    rw [hce]
    rcases List.mem_append.mp hp with hp | hp
    · exact List.mem_append.mpr (Or.inl hp)
    · exact List.mem_append.mpr (Or.inr (List.mem_cons.mpr (Or.inr hp)))
  have hne_of : ∀ p, p ∈ c1 ++ c2 → p.1 ≠ l := by
    intro p hp
    rcases List.mem_append.mp hp with hp | hp
    · exact hc1 p hp
    · exact hc2 p hp
  constructor
  · intro p hp
    rw [hs'c] at hp
    rcases List.mem_append.mp hp with hp | hp
    · exact hinv.valid01 p (hmem_of p hp)
    · rcases List.mem_cons.mp hp with hp | hp
      · rw [hp]
        right
        exact hbv
      · simp at hp
  · intro p hp
    rw [hs'c] at hp
    rcases List.mem_append.mp hp with hp | hp
    · rw [tlookup_tset_ne _ _ (hne_of p hp)]
      exact hinv.touched p (hmem_of p hp)
    · rcases List.mem_cons.mp hp with hp | hp
      · rw [hp]
        dsimp only []
        rw [tlookup_tset_self]
        simp [hbv]
      · simp at hp
  · rw [hs'c]
    refine List.pairwise_append.mpr ⟨?_, List.pairwise_singleton _ _, ?_⟩
    · have hsub : (c1 ++ c2).Sublist (c1 ++ (l, bOld) :: c2) :=
        List.Sublist.append_left (List.sublist_cons_self _ _) c1
      have hpw : (c1 ++ c2).Pairwise (TouchLt t) :=
        List.Pairwise.sublist hsub (hce ▸ hinv.ordered)
      refine List.Pairwise.imp_of_mem ?_ hpw
      intro p q hp hq hR x hx
      rw [tlookup_tset_ne _ _ (hne_of p hp)] at hx
      obtain ⟨y, hy, hxy⟩ := hR x hx
      exact ⟨y, by rw [tlookup_tset_ne _ _ (hne_of q hq)]; exact hy, hxy⟩
    · intro p hp q hq x hx
      have hq' : q = (l, bNew) := List.mem_singleton.mp hq
      rw [tlookup_tset_ne _ _ (hne_of p hp)] at hx
      refine ⟨s.total_accesses + 1, ?_, Nat.lt_succ_of_le (hinv.bounded p.1 x hx)⟩
      rw [hq']
      dsimp only []
      exact tlookup_tset_self _ _ _
  · intro k x hx
    rw [htot]
    by_cases hk : k = l
    · subst hk
      rw [tlookup_tset_self] at hx
      injection hx with hx
      omega
    · rw [tlookup_tset_ne _ _ hk] at hx
      have := hinv.bounded k x hx
      omega
  · rw [hs'c]
    exact nodup_keys_move (hce ▸ hinv.keys_nodup)

theorem FAState.ghostRun_inv {tr : List MemAccess} {s : FAState} {t : List (Nat × Nat)}
    {s' : FAState} {t' : List (Nat × Nat)} (hinv : FAInv s t)
    (h : FAState.ghostRun s t tr = .ok (s', t')) : FAInv s' t' := by
  induction tr generalizing s t with
  | nil =>
    unfold FAState.ghostRun at h
    simp only [Except.ok.injEq, Prod.mk.injEq] at h
    obtain ⟨h1, h2⟩ := h
    subst h1
    subst h2
    exact hinv
  | cons a rest ih =>
    unfold FAState.ghostRun at h
    split at h
    · simp at h
    · rename_i resp s1 hp
      simp only [] at h
      exact ih (FAInv_step hinv hp) h
/-- C3: on a fully-associative cache built fresh and driven by any trace while
recording, for every access, the access number at which each line was last
touched, an access that reports an eviction evicts exactly the line at the
front of the ordered dict, and that line is the least recently touched: it was
last touched strictly earlier than every other line (all of which are valid and
have been touched). -/
theorem fa_evicts_least_recently_touched
    {cache_size block_size : Int} {write_policy : String} {tr : List MemAccess}
    {s : FAState} {t : List (Nat × Nat)} {a : MemAccess}
    {resp : AccessResp} {s' : FAState}
    (hrun : faFreshGhost cache_size block_size write_policy tr = .ok (s, t))
    (hacc : s.access a.address a.operation a.data = .ok (resp, s'))
    (hev : resp.eviction = true) :
    ∃ v, resp.affected_line = some v ∧ evict_lru s.cache = some v ∧
      ∃ x, tlookup t v = some x ∧
        ∀ p ∈ s.cache, p.2.valid = 1 ∧
          ∃ y, tlookup t p.1 = some y ∧ (p.1 ≠ v → x < y) := by
  have hinv : FAInv s t := by
    unfold faFreshGhost at hrun
    split at hrun
    · simp at hrun
    · rename_i s0 hmk
      exact FAState.ghostRun_inv (FAInv_init hmk) hrun
  obtain ⟨_, _, _, _, _, _, _, _, hnoemp, l, bOld, bNew, c1, c2, haff, hce, hc1, hc2,
    _, _, hc1nil, _, _, _, _, _, _⟩ := FAState.fa_access_spec hinv.keys_nodup hacc
  have hc1e := hc1nil hev
  subst hc1e
  rw [List.nil_append] at hce
  have hallv : ∀ p ∈ s.cache, p.2.valid = 1 := by
    intro p hp
    rcases hinv.valid01 p hp with h0 | h1
    · exact absurd h0 (find_empty_none (hnoemp hev) p hp)
    · exact h1
  have hheadmem : ((l, bOld) : Nat × CacheBlock) ∈ s.cache := by
    rw [hce]
    exact List.mem_cons_self _ _
  have hxex : ∃ x, tlookup t l = some x := by
    have hv : bOld.valid = 1 := hallv (l, bOld) hheadmem
    have := (hinv.touched (l, bOld) hheadmem).mp hv
    exact Option.isSome_iff_exists.mp this
  obtain ⟨x, hx⟩ := hxex
  have hpw : ∀ q ∈ c2, TouchLt t (l, bOld) q :=
    (List.pairwise_cons.mp (hce ▸ hinv.ordered)).1
  refine ⟨l, haff, ?_, x, hx, ?_⟩
  · rw [hce]
    rfl
  · intro p hp
    refine ⟨hallv p hp, ?_⟩
    rw [hce] at hp
    rcases List.mem_cons.mp hp with hp | hp
    · refine ⟨x, ?_, fun hne => absurd ?_ hne⟩
      · rw [hp]
        exact hx
      · rw [hp]
    · obtain ⟨y, hy, hxy⟩ := hpw p hp x hx
      exact ⟨y, hy, fun _ => hxy⟩

theorem fa_evicts_least_recently_touched_witness :
    ∃ v, (AccessResp.mk 5 64 "read" 16 none 0 false true false (some 0)).affected_line = some v ∧
      evict_lru [(0, CacheBlock.mk 1 (some 0) (some 0) 0), (1, CacheBlock.mk 1 (some 4) (some 16) 0),
        (2, CacheBlock.mk 1 (some 8) (some 32) 0), (3, CacheBlock.mk 1 (some 12) (some 48) 0)] = some v ∧
      ∃ x, tlookup [(0, 1), (1, 2), (2, 3), (3, 4)] v = some x ∧
        ∀ p ∈ [(0, CacheBlock.mk 1 (some 0) (some 0) 0), (1, CacheBlock.mk 1 (some 4) (some 16) 0),
          (2, CacheBlock.mk 1 (some 8) (some 32) 0), (3, CacheBlock.mk 1 (some 12) (some 48) 0)],
          p.2.valid = 1 ∧
          ∃ y, tlookup [(0, 1), (1, 2), (2, 3), (3, 4)] p.1 = some y ∧ (p.1 ≠ v → x < y) := by
  have h1 : faFreshGhost 16 4 "write-back"
      [⟨0, "read", none⟩, ⟨16, "read", none⟩, ⟨32, "read", none⟩, ⟨48, "read", none⟩] =
      .ok (⟨16, 4, 4, "write-back", 2, 30,
            [(0, ⟨1, some 0, some 0, 0⟩), (1, ⟨1, some 4, some 16, 0⟩),
             (2, ⟨1, some 8, some 32, 0⟩), (3, ⟨1, some 12, some 48, 0⟩)],
            4, 0, 4, 4, 0⟩,
           [(0, 1), (1, 2), (2, 3), (3, 4)]) := by
    simp only [faFreshGhost, mkFA_16_4]
    rfl
  have h2 : (FAState.mk 16 4 4 "write-back" 2 30
      [(0, ⟨1, some 0, some 0, 0⟩), (1, ⟨1, some 4, some 16, 0⟩),
       (2, ⟨1, some 8, some 32, 0⟩), (3, ⟨1, some 12, some 48, 0⟩)]
      4 0 4 4 0).access (MemAccess.mk 64 "read" none).address
      (MemAccess.mk 64 "read" none).operation (MemAccess.mk 64 "read" none).data =
      .ok (AccessResp.mk 5 64 "read" 16 none 0 false true false (some 0),
           FAState.mk 16 4 4 "write-back" 2 30
             [(1, ⟨1, some 4, some 16, 0⟩), (2, ⟨1, some 8, some 32, 0⟩),
              (3, ⟨1, some 12, some 48, 0⟩), (0, ⟨1, some 16, some 64, 0⟩)]
             5 0 5 5 0) := rfl
  exact fa_evicts_least_recently_touched h1 h2 rfl
